import Mathlib

/-!
Verification of the clue oracle, constraint compiler, possibility filters and
guess-ranking aggregates of the Wordle/Lexeme best-first-guess solver
(`best_guess.c` and its earlier revisions).

Words are modelled in "chopped" form, exactly as the solver stores them
(`USE_CHOPPER`): a word is a `List Nat` whose entries are letter offsets
(`'A' ↦ 0`, …, `'Z' ↦ 25`).  The sentinel byte `NON_LETTER` (0xff), which can
never collide with a letter, is modelled by `Option Nat` (`none` plays the
role of `NON_LETTER`) in the leftover pools; in the compiled `have` array the
sentinel letter is kept literally as `255`.  The `uint8_t` counter fields of
`struct _have` are modelled by `Nat`; this is faithful whenever the word
length is at most 255 (the program itself rejects lines of 127+ bytes), and
the theorems carry that bound as a hypothesis.
-/

namespace Lexeme

/-- The three-valued per-letter feedback (`Absent`/`WrongPosition`/`RightPosition`). -/
inductive Clue : Type where
  | A : Clue
  | W : Clue
  | R : Clue
deriving DecidableEq, Repr

/-- `memchr(leftovers, gl, len)` followed by `*lo = NON_LETTER`: find the first
occurrence of letter `g` in the leftover pool and blank it out.  Returns `none`
when the letter is not in the pool. -/
def removeFirst : List (Option Nat) → Nat → Option (List (Option Nat))
  | [], _ => none
  | x :: xs, g =>
    if x = some g then some (none :: xs)
    else
      match removeFirst xs g with
      | some ys => some (x :: ys)
      | none => none

/-- Pass 1 of `clues_of_guess`: the initial leftover pool, holding the target
letter at every non-matching position and `NON_LETTER` at matching ones. -/
def initLeftovers (gs ts : List Nat) : List (Option Nat) :=
  (gs.zip ts).map (fun p => if p.1 = p.2 then none else some p.2)

/-- Pass 2 of `clues_of_guess`: walk the positions in order; emit
`RightPosition` on a positional match, otherwise `WrongPosition` when the
guess letter is still in the leftover pool (consuming its first occurrence),
otherwise `Absent`. -/
def cluesAux : List Nat → List Nat → List (Option Nat) → List Clue
  | g :: gs, t :: ts, lo =>
    if g = t then Clue.R :: cluesAux gs ts lo
    else
      match removeFirst lo g with
      | some lo2 => Clue.W :: cluesAux gs ts lo2
      | none => Clue.A :: cluesAux gs ts lo
  | _, _, _ => []

/-- `clues_of_guess` from `best_guess.c` (the clue string, without the
terminating NUL). -/
def clues_of_guess (gs ts : List Nat) : List Clue :=
  cluesAux gs ts (initLeftovers gs ts)

/-- The base-3 digit of a clue, as in the `clunique` accumulation of the
older `clues_of_guess` revision (`Absent=0, WrongPosition=1, RightPosition=2`). -/
def clueTrit : Clue → Nat
  | Clue.A => 0
  | Clue.W => 1
  | Clue.R => 2

/-- `cl = cl*3; cl += trit` folded over the clue sequence, leftmost position
most significant. -/
def cluesToNat (l : List Clue) : Nat :=
  l.foldl (fun acc c => 3 * acc + clueTrit c) 0

/-- The integer classification (`clunique`) computed by the older
`clues_of_guess` revision: the trit accumulator runs in the same loop that
emits the clues, so it is exactly the base-3 fold of the clue sequence. -/
def clunique_of_guess (gs ts : List Nat) : Nat :=
  cluesToNat (clues_of_guess gs ts)

/-! ### The raw-clue possibility filter (`is_word_possible_after_guess`) -/

/-- `left_word[c]`: occurrences of letter `c` in the candidate word at
positions whose clue is not `RightPosition`. -/
def left_word (ws : List Nat) (S : List Clue) (c : Nat) : Nat :=
  (ws.zip S).countP (fun p => p.1 == c && !(p.2 == Clue.R))

/-- `wp_guess[c]`: occurrences of letter `c` in the guess at positions whose
clue is `WrongPosition`. -/
def wp_guess (gs : List Nat) (S : List Clue) (c : Nat) : Nat :=
  (gs.zip S).countP (fun p => p.1 == c && p.2 == Clue.W)

/-- `a_guess[c]`: occurrences of letter `c` in the guess at positions whose
clue is `Absent`. -/
def a_guess (gs : List Nat) (S : List Clue) (c : Nat) : Nat :=
  (gs.zip S).countP (fun p => p.1 == c && p.2 == Clue.A)

/-- `is_word_possible_after_guess` from `best_guess.c`: positional
`RightPosition` agreement, then the per-letter count checks over the 26
letters. -/
def is_word_possible_after_guess (gs ws : List Nat) (S : List Clue) : Bool :=
  ((gs.zip ws).zip S).all
    (fun q => !(q.1.1 == q.1.2 && !(q.2 == Clue.R)) && !(!(q.1.1 == q.1.2) && q.2 == Clue.R))
  && (List.range 26).all (fun c =>
      decide (wp_guess gs S c ≤ left_word ws S c)
      && (a_guess gs S c == 0 || decide (left_word ws S c ≤ wp_guess gs S c)))

/-! ### The constraint compiler (`cluevec_of_guess`) -/

/-- One entry of the per-letter occurrence-range array (`struct _have`).
The `at_most`/`at_least` fields are `uint8_t` in C, modelled as `Nat`. -/
structure Have : Type where
  c : Nat
  at_most : Nat
  at_least : Nat
deriving DecidableEq, Repr

/-- Update the per-letter array at index `c` (`cv->have[gl_off] = …`). -/
def updHave (f : Nat → Have) (c : Nat) (h : Have) : Nat → Have :=
  fun x => if x = c then h else f x

/-- The compiled Constraint Object (`STRUCT_CLUEVEC`): `must_be[pos]` is the
single-bit mask as an `Option` (`none` for no marker), `must_not_be[pos]` is a
genuine bitmask over letters, and `haves` is the sorted-and-trimmed
per-letter count-range array. -/
structure Cluevec : Type where
  must_be : List (Option Nat)
  must_not_be : List Nat
  haves : List Have
deriving Repr

/-- Pass 1 of `cluevec_of_guess`: distinguish `RightPosition` from the rest;
build the per-position markers, the leftover pool, and the pass-1 state of the
per-letter array.  Returns `(must_be, must_not_be, leftovers, have)`. -/
def cvPass1 : List Nat → List Nat → (Nat → Have) →
    List (Option Nat) × List Nat × List (Option Nat) × (Nat → Have)
  | g :: gs, t :: ts, f =>
    if g = t then
      let r := cvPass1 gs ts (updHave f g { f g with at_least := (f g).at_least + 1 })
      (some g :: r.1, 0 :: r.2.1, none :: r.2.2.1, r.2.2.2)
    else
      let r := cvPass1 gs ts (updHave f g { f g with at_most := (f g).at_most - 1 })
      (none :: r.1, 2 ^ g :: r.2.1, some t :: r.2.2.1, r.2.2.2)
  | _, _, f => ([], [], [], f)

/-- Pass 2 of `cluevec_of_guess`: distinguish `WrongPosition` from `Absent`;
on `WrongPosition` bump `at_least`, on `Absent` clamp `at_most` to `at_least`
and, when that is zero, ban the letter at every position.  Returns the final
`(must_not_be, have)`. -/
def cvPass2 : List Nat → List Nat → List (Option Nat) → List Nat → (Nat → Have) →
    List Nat × (Nat → Have)
  | g :: gs, t :: ts, lo, mnb, f =>
    if g = t then cvPass2 gs ts lo mnb f
    else
      match removeFirst lo g with
      | some lo2 => cvPass2 gs ts lo2 mnb (updHave f g { f g with at_least := (f g).at_least + 1 })
      | none =>
        let mnb2 := if (f g).at_least = 0 then mnb.map (fun m => m ||| 2 ^ g) else mnb
        cvPass2 gs ts lo mnb2 (updHave f g { f g with at_most := (f g).at_least })
  | _, _, _, mnb, f => (mnb, f)

/-- The `compar_have` ordering: higher `at_least` first, ties broken by lower
`at_most` first. -/
def haveBefore (a b : Have) : Prop :=
  b.at_least < a.at_least ∨ (b.at_least = a.at_least ∧ a.at_most ≤ b.at_most)

instance : DecidableRel haveBefore := fun a b => by
  unfold haveBefore; infer_instance

instance : IsTotal Have haveBefore := by
  constructor
  intro a b
  unfold haveBefore
  omega

instance : IsTrans Have haveBefore := by
  constructor
  intro a b c hab hbc
  unfold haveBefore at *
  omega

/-- The `qsort(cv->have, …, compar_have)` step, modelled by a sort satisfying
the same comparator (the downstream verdict is independent of how the
comparator's ties are ordered, which `qsort` leaves unspecified). -/
def sortHaves (l : List Have) : List Have :=
  List.insertionSort haveBefore l

/-- The trimming loop after the sort: blank out (`c = NON_LETTER`, i.e. 255)
the first entry that carries no information and stop there. -/
def trimHaves (len : Nat) : List Have → List Have
  | [] => []
  | h :: hs =>
    if h.at_most = 0 ∨ (h.at_least = 0 ∧ h.at_most = len) then { h with c := 255 } :: hs
    else h :: trimHaves len hs

/-- `cluevec_of_guess` from `best_guess.c`. -/
def cluevec_of_guess (len : Nat) (gs ts : List Nat) : Cluevec :=
  let p1 := cvPass1 gs ts (fun c => { c := c, at_most := len, at_least := 0 })
  let p2 := cvPass2 gs ts p1.2.2.1 p1.2.1 p1.2.2.2
  { must_be := p1.1
    must_not_be := p2.1
    haves := trimHaves len (sortHaves ((List.range 26).map p2.2)) }

/-- The count-range scan of `is_word_possible_after_cluevec`: walk the sorted
`have` entries until the `NON_LETTER` sentinel, rejecting when the candidate's
letter count falls outside `[at_least, at_most]`. -/
def checkHaves (cnt : Nat → Nat) : List Have → Bool
  | [] => true
  | h :: hs =>
    if h.c = 255 then true
    else if cnt h.c < h.at_least then false
    else if h.at_most < cnt h.c then false
    else checkHaves cnt hs

/-- `is_word_possible_after_cluevec` from `best_guess.c`: per-position
must-be/must-not-be checks (`must_be[ii] & ~wl_bit`, `must_not_be[ii] & wl_bit`),
then the per-letter count ranges. -/
def is_word_possible_after_cluevec (ws : List Nat) (cv : Cluevec) : Bool :=
  (ws.zip (cv.must_be.zip cv.must_not_be)).all
    (fun q =>
      (match q.2.1 with
       | some g => g == q.1
       | none => true)
      && !(q.2.2.testBit q.1))
  && checkHaves (fun c => ws.count c) cv.haves

/-! ### The leftover pool abstracted to per-letter counts

`cluesAux` consults the pool only through "is letter `g` still present"
(`memchr`) and removes one occurrence at a time, so its output depends only on
the multiset of letters in the pool.  `cluesCnt` is the same recursion driven
by a count function; all counting lemmas are proved against it. -/

/-- Remove one occurrence of letter `c` from a count function. -/
def decrPool (f : Nat → Nat) (c : Nat) : Nat → Nat :=
  fun x => if x = c then f c - 1 else f x

/-- The clue recursion driven by a per-letter pool count. -/
def cluesCnt : List Nat → List Nat → (Nat → Nat) → List Clue
  | g :: gs, t :: ts, f =>
    if g = t then Clue.R :: cluesCnt gs ts f
    else if 0 < f g then Clue.W :: cluesCnt gs ts (decrPool f g)
    else Clue.A :: cluesCnt gs ts f
  | _, _, _ => []

/-- Letter counts of a leftover pool (`NON_LETTER` entries never count). -/
def countSome (lo : List (Option Nat)) : Nat → Nat :=
  fun c => lo.count (some c)

/-! ### Per-letter counts over the (guess, target) zip -/

/-- Occurrences of letter `c` in the guess at non-matching positions. -/
def gcnt (gs ts : List Nat) (c : Nat) : Nat :=
  (gs.zip ts).countP (fun p => p.1 == c && !(p.1 == p.2))

/-- Occurrences of letter `c` in the target at non-matching positions (the
initial leftover pool). -/
def tcnt (gs ts : List Nat) (c : Nat) : Nat :=
  (gs.zip ts).countP (fun p => p.2 == c && !(p.1 == p.2))

/-- Occurrences of letter `c` at matching positions. -/
def rcnt (gs ts : List Nat) (c : Nat) : Nat :=
  (gs.zip ts).countP (fun p => p.1 == c && p.1 == p.2)

/-- The number of `WrongPosition` clues letter `c` receives. -/
def wpv (gs ts : List Nat) (c : Nat) : Nat :=
  min (gcnt gs ts c) (tcnt gs ts c)

/-- Leftover-letter counts of the candidate word, re-expressed over the
`(guess, target, word)` zip: clue `≠ RightPosition` at a position is the same
as guess `≠` target there. -/
def lcnt (gs ts ws : List Nat) (c : Nat) : Nat :=
  ((gs.zip ts).zip ws).countP (fun q => !(q.1.1 == q.1.2) && q.2 == c)

/-- The positional `RightPosition` agreement check of the raw filter,
re-expressed over the `(guess, target, word)` zip. -/
def posOK (gs ts ws : List Nat) : Prop :=
  ∀ q ∈ (gs.zip ts).zip ws, (q.1.1 = q.1.2 ↔ q.1.1 = q.2)

instance (gs ts ws : List Nat) : Decidable (posOK gs ts ws) := by
  unfold posOK; infer_instance

/-- Decode a base-3 digit back into a clue (`0 ↦ Absent`, `1 ↦ WrongPosition`,
`2 ↦ RightPosition`). -/
def clueOfTrit (n : Nat) : Clue :=
  if n = 2 then Clue.R else if n = 1 then Clue.W else Clue.A

/-- Decode a classification integer into its `len` base-3 digits,
most-significant digit leftmost. -/
def natToClues : Nat → Nat → List Clue
  | 0, _ => []
  | len + 1, n => natToClues len (n / 3) ++ [clueOfTrit (n % 3)]

/-! ### The pass-2 effects of `cluevec_of_guess`, viewed over the clue list

Pass 2 of `cluevec_of_guess` takes the same branch at each position as the
clue oracle does (the same `memchr` over the same evolving pool), so its
effect on `must_not_be` and on the per-letter array can be read off the list
of `(guess letter, clue)` pairs. -/

/-- The per-letter-array effect of pass 2, one `(guess letter, clue)` step at
a time. -/
def pass2F : List (Nat × Clue) → (Nat → Have) → (Nat → Have)
  | [], f => f
  | (_, Clue.R) :: rest, f => pass2F rest f
  | (g, Clue.W) :: rest, f =>
      pass2F rest (updHave f g { f g with at_least := (f g).at_least + 1 })
  | (g, Clue.A) :: rest, f =>
      pass2F rest (updHave f g { f g with at_most := (f g).at_least })

/-- The accumulated `must_not_be[*]` mask of pass 2: a letter's bit is OR-ed
in at an `Absent` step whose `at_least` is still zero. -/
def pass2M : List (Nat × Clue) → (Nat → Have) → Nat
  | [], _ => 0
  | (_, Clue.R) :: rest, f => pass2M rest f
  | (g, Clue.W) :: rest, f =>
      pass2M rest (updHave f g { f g with at_least := (f g).at_least + 1 })
  | (g, Clue.A) :: rest, f =>
      (if (f g).at_least = 0 then 2 ^ g else 0) |||
        pass2M rest (updHave f g { f g with at_most := (f g).at_least })

/-- The clues received by one letter of the guess, in position order. -/
def projClues (c : Nat) (steps : List (Nat × Clue)) : List Clue :=
  steps.filterMap (fun p => if p.1 = c then some p.2 else none)

/-- `pass2F` projected onto a single per-letter entry. -/
def pass2FC : List Clue → Have → Have
  | [], h => h
  | Clue.R :: r, h => pass2FC r h
  | Clue.W :: r, h => pass2FC r { h with at_least := h.at_least + 1 }
  | Clue.A :: r, h => pass2FC r { h with at_most := h.at_least }

/-- `pass2M`'s bit for a single letter. -/
def pass2MC : List Clue → Have → Bool
  | [], _ => false
  | Clue.R :: r, h => pass2MC r h
  | Clue.W :: r, h => pass2MC r { h with at_least := h.at_least + 1 }
  | Clue.A :: r, h => (h.at_least == 0) || pass2MC r { h with at_most := h.at_least }

/-- The final `at_least` of a letter's entry: `RightPosition` plus
`WrongPosition` credits. -/
def alF (gs ts : List Nat) (c : Nat) : Nat :=
  rcnt gs ts c + wpv gs ts c

/-- The final `at_most` of a letter's entry: clamped to `at_least` as soon as
the letter received an `Absent` clue, otherwise `len` minus the pass-1
decrements. -/
def amF (len : Nat) (gs ts : List Nat) (c : Nat) : Nat :=
  if gcnt gs ts c = wpv gs ts c then len - gcnt gs ts c else alF gs ts c

/-- The initial per-letter array of `cluevec_of_guess` (`.c = ii`,
`.at_most = len`, `.at_least = 0`). -/
def cvInit (len : Nat) : Nat → Have :=
  fun c => { c := c, at_most := len, at_least := 0 }

/-- The `must_not_be[*]` mask accumulated by pass 2 (zero-occurrence letters
banned at every position). -/
def cvMask (len : Nat) (gs ts : List Nat) : Nat :=
  pass2M (gs.zip (cluesAux gs ts (initLeftovers gs ts)))
    ((cvPass1 gs ts (cvInit len)).2.2.2)

/-! ### The guess-ranking loop of `best_guess.c` `main`, and the clunique
histogram of the older revision -/

/-- The inner `kk` loop of `main`: how many of the targets are still possible
after this guess/target pair, using the compiled filter (`USE_CLUEVEC`). -/
def count_left (len : Nat) (targets : List (List Nat)) (g t : List Nat) : Nat :=
  targets.countP (fun w => is_word_possible_after_cluevec w (cluevec_of_guess len g t))

/-- The accumulator `acc` of the ranking loop: the sum of `count` over all
targets. -/
def acc_left (len : Nat) (targets : List (List Nat)) (g : List Nat) : Nat :=
  (targets.map (fun t => count_left len targets g t)).sum

/-- `worst_left`: the running maximum of `count` over all targets
(`if (count > worst_left) worst_left = count`). -/
def worst_left (len : Nat) (targets : List (List Nat)) (g : List Nat) : Nat :=
  targets.foldl
    (fun w t => if w < count_left len targets g t then count_left len targets g t else w) 0

/-- The populated entries of the older revision's `cluniques` histogram: the
count of targets in each populated base-3 classification, one entry per
distinct classification. -/
def bucketSizes (g : List Nat) (targets : List (List Nat)) : List Nat :=
  ((targets.map (clunique_of_guess g)).dedup).map
    (fun v => (targets.map (clunique_of_guess g)).count v)

/-- Modelled from the spec: "Sort bucket counts descending" (§4.4 step 2);
the sorting code that derives the Ranking Record is not in `src/`. -/
def sortDesc (l : List Nat) : List Nat :=
  List.insertionSort (fun a b => b ≤ a) l

/-- The previous bucket's size during the median walk, as a rational
(`q` when no bucket has been passed yet). -/
def lastD (pre : List Nat) (q : ℚ) : ℚ :=
  match pre.getLast? with
  | some x => (x : ℚ)
  | none => q

/-- Modelled from the spec: "walk the sorted buckets accumulating counts;
when the running total first reaches or passes the 50th-percentile rank,
linearly interpolate between the current bucket's size and the previous
bucket's size, weighted by how far into the current bucket the percentile
rank falls" (§4.4 step 4); the median code is not in `src/`. -/
def medianGo (r : Nat) : Nat → ℚ → List Nat → ℚ
  | _, prev, [] => prev
  | acc, prev, k :: rest =>
    if r ≤ acc + k then prev + (((r : ℚ) - (acc : ℚ)) / (k : ℚ)) * ((k : ℚ) - prev)
    else medianGo r (acc + k) (k : ℚ) rest

/-- Modelled from the spec: the median walk started at the largest bucket
(for a rank falling inside the first bucket there is no previous bucket, so
the interpolation degenerates to that bucket's size, matching the
single-target sanity case of §8). -/
def medianWalk (r : Nat) (bs : List Nat) : ℚ :=
  medianGo r 0 ((bs.headD 0 : Nat) : ℚ) bs

/-- Modelled from the spec: the Ranking Record emitted per guess
(§3 "Ranking Record", §4.4 step 5); the emission code is not in `src/`. -/
structure RankingRecord : Type where
  average : ℚ
  median : ℚ
  worst : Nat
  npop : Nat

/-- Modelled from the spec: the four aggregates of §4.4 computed from the
clunique buckets — average `(Σ k²)/Nt`, interpolated median, worst-case
(largest bucket), and the number of populated classifications. -/
def rankingRecord (g : List Nat) (targets : List (List Nat)) : RankingRecord :=
  { average := ((((bucketSizes g targets).map (fun k => k ^ 2)).sum : Nat) : ℚ) / (targets.length : ℚ)
    median := medianWalk (targets.length / 2) (sortDesc (bucketSizes g targets))
    worst := (sortDesc (bucketSizes g targets)).headD 0
    npop := ((targets.map (clunique_of_guess g)).dedup).length }


theorem removeFirst_eq_none (lo : List (Option Nat)) (g : Nat) :
    removeFirst lo g = none ↔ some g ∉ lo := by
  induction lo with
  | nil => simp [removeFirst]
  | cons x xs ih =>
    simp only [removeFirst]
    by_cases hx : x = some g
    · simp [hx]
    · rw [if_neg hx]
      cases hrec : removeFirst xs g with
      | some ys =>
        have hmem : some g ∈ xs := by
          by_contra hm
          rw [ih.mpr hm] at hrec
          cases hrec
        simp [List.mem_cons, hmem]
      | none => simp [List.mem_cons, Ne.symm hx, ih.mp hrec]

theorem removeFirst_count {lo lo2 : List (Option Nat)} {g : Nat}
    (h : removeFirst lo g = some lo2) : countSome lo2 = decrPool (countSome lo) g := by
  induction lo generalizing lo2 with
  | nil => simp [removeFirst] at h
  | cons x xs ih =>
    simp only [removeFirst] at h
    by_cases hx : x = some g
    · rw [if_pos hx] at h
      injection h with h
      subst h
      funext c
      by_cases hc : c = g
      · subst hc
        simp [countSome, decrPool, List.count_cons, hx]
      · have hxc : ¬some c = x := by rw [hx]; simp [hc]
        simp [countSome, decrPool, List.count_cons, hc, hxc]
    · rw [if_neg hx] at h
      cases hrec : removeFirst xs g with
      | some ys =>
        rw [hrec] at h
        injection h with h
        subst h
        funext c
        have hih := congrFun (ih hrec) c
        by_cases hc : c = g
        · subst hc
          have hxc : ¬x = some c := hx
          simp only [countSome, decrPool, if_pos rfl] at hih ⊢
          simp [List.count_cons, hxc, hih]
        · simp only [countSome, decrPool, if_neg hc] at hih ⊢
          simp [List.count_cons, hih]
      | none =>
        rw [hrec] at h
        cases h

theorem removeFirst_mem {lo lo2 : List (Option Nat)} {g : Nat}
    (h : removeFirst lo g = some lo2) : some g ∈ lo := by
  by_contra hmem
  rw [← removeFirst_eq_none lo g] at hmem
  rw [hmem] at h
  cases h

theorem cluesAux_eq_cluesCnt : ∀ (gs ts : List Nat) (lo : List (Option Nat)),
    cluesAux gs ts lo = cluesCnt gs ts (countSome lo) := by
  intro gs
  induction gs with
  | nil => intro ts lo; cases ts <;> rfl
  | cons g gs ih =>
    intro ts lo
    cases ts with
    | nil => rfl
    | cons t ts =>
      by_cases hgt : g = t
      · simp [cluesAux, cluesCnt, hgt, ih]
      · simp only [cluesAux, cluesCnt, if_neg hgt]
        cases hrem : removeFirst lo g with
        | some lo2 =>
          have hpos : 0 < countSome lo g := by
            have := removeFirst_mem hrem
            simpa [countSome, List.count_pos_iff] using this
          rw [if_pos hpos]
          show Clue.W :: cluesAux gs ts lo2 = Clue.W :: cluesCnt gs ts (decrPool (countSome lo) g)
          rw [ih, removeFirst_count hrem]
        | none =>
          have hzero : countSome lo g = 0 := by
            have := (removeFirst_eq_none lo g).mp hrem
            simpa [countSome, List.count_eq_zero] using this
          rw [if_neg (by omega)]
          show Clue.A :: cluesAux gs ts lo = Clue.A :: cluesCnt gs ts (countSome lo)
          rw [ih]

theorem countSome_initLeftovers (gs ts : List Nat) :
    countSome (initLeftovers gs ts) = tcnt gs ts := by
  funext c
  simp only [countSome, initLeftovers, tcnt, List.count_eq_countP, List.countP_map]
  apply List.countP_congr
  intro p _
  by_cases h : p.1 = p.2 <;> by_cases h2 : p.2 = c <;> simp [h, h2, Function.comp]

theorem clues_of_guess_eq_cluesCnt (gs ts : List Nat) :
    clues_of_guess gs ts = cluesCnt gs ts (tcnt gs ts) := by
  rw [clues_of_guess, cluesAux_eq_cluesCnt, countSome_initLeftovers]

@[simp] theorem clue_beq_AA : (Clue.A == Clue.A) = true := rfl
@[simp] theorem clue_beq_AW : (Clue.A == Clue.W) = false := rfl
@[simp] theorem clue_beq_AR : (Clue.A == Clue.R) = false := rfl
@[simp] theorem clue_beq_WA : (Clue.W == Clue.A) = false := rfl
@[simp] theorem clue_beq_WW : (Clue.W == Clue.W) = true := rfl
@[simp] theorem clue_beq_WR : (Clue.W == Clue.R) = false := rfl
@[simp] theorem clue_beq_RA : (Clue.R == Clue.A) = false := rfl
@[simp] theorem clue_beq_RW : (Clue.R == Clue.W) = false := rfl
@[simp] theorem clue_beq_RR : (Clue.R == Clue.R) = true := rfl

theorem gcnt_cons (g t c : Nat) (gs ts : List Nat) :
    gcnt (g :: gs) (t :: ts) c = gcnt gs ts c + if g = c ∧ ¬g = t then 1 else 0 := by
  simp only [gcnt, List.zip_cons_cons, List.countP_cons]
  by_cases h1 : g = c <;> by_cases h2 : g = t <;> simp [h1, h2]

theorem tcnt_cons (g t c : Nat) (gs ts : List Nat) :
    tcnt (g :: gs) (t :: ts) c = tcnt gs ts c + if t = c ∧ ¬g = t then 1 else 0 := by
  simp only [tcnt, List.zip_cons_cons, List.countP_cons]
  by_cases h1 : t = c <;> by_cases h2 : g = t <;> simp [h1, h2]

theorem rcnt_cons (g t c : Nat) (gs ts : List Nat) :
    rcnt (g :: gs) (t :: ts) c = rcnt gs ts c + if g = c ∧ g = t then 1 else 0 := by
  simp only [rcnt, List.zip_cons_cons, List.countP_cons]
  by_cases h1 : g = c <;> by_cases h2 : g = t <;> simp [h1, h2]

/-- The number of `WrongPosition` clues a letter receives is the guess's
non-matching occurrences of it capped by the pool's supply. -/
theorem wp_count : ∀ (gs ts : List Nat) (f : Nat → Nat) (c : Nat),
    (gs.zip (cluesCnt gs ts f)).countP (fun p => p.1 == c && p.2 == Clue.W)
      = min (gcnt gs ts c) (f c) := by
  intro gs
  induction gs with
  | nil => intro ts f c; simp [cluesCnt, gcnt]
  | cons g gs ih =>
    intro ts f c
    cases ts with
    | nil => simp [cluesCnt, gcnt]
    | cons t ts =>
      by_cases hgt : g = t
      · rw [show cluesCnt (g :: gs) (t :: ts) f = Clue.R :: cluesCnt gs ts f by
          simp [cluesCnt, hgt]]
        simp only [List.zip_cons_cons, List.countP_cons, gcnt_cons, ih]
        simp [hgt]
      · simp only [cluesCnt, if_neg hgt]
        by_cases hf : 0 < f g
        · rw [if_pos hf]
          simp only [List.zip_cons_cons, List.countP_cons, gcnt_cons, ih]
          by_cases hc : g = c
          · subst hc
            simp only [decrPool, if_pos rfl]
            have h1 : min (gcnt gs ts g) (f g - 1) + 1 = min (gcnt gs ts g + 1) (f g) := by
              omega
            simp [hgt, h1]
          · have hcg : ¬c = g := fun hh => hc hh.symm
            simp only [decrPool, if_neg hcg]
            simp [hc]
        · rw [if_neg hf]
          simp only [List.zip_cons_cons, List.countP_cons, gcnt_cons, ih]
          by_cases hc : g = c
          · subst hc
            have hf0 : f g = 0 := by omega
            simp [hgt, hf0]
          · simp [hc]

/-- The number of `Absent` clues a letter receives is the guess's
non-matching occurrences of it minus those credited as `WrongPosition`. -/
theorem a_count : ∀ (gs ts : List Nat) (f : Nat → Nat) (c : Nat),
    (gs.zip (cluesCnt gs ts f)).countP (fun p => p.1 == c && p.2 == Clue.A)
      = gcnt gs ts c - min (gcnt gs ts c) (f c) := by
  intro gs
  induction gs with
  | nil => intro ts f c; simp [cluesCnt, gcnt]
  | cons g gs ih =>
    intro ts f c
    cases ts with
    | nil => simp [cluesCnt, gcnt]
    | cons t ts =>
      by_cases hgt : g = t
      · rw [show cluesCnt (g :: gs) (t :: ts) f = Clue.R :: cluesCnt gs ts f by
          simp [cluesCnt, hgt]]
        simp only [List.zip_cons_cons, List.countP_cons, gcnt_cons, ih]
        simp [hgt]
      · simp only [cluesCnt, if_neg hgt]
        by_cases hf : 0 < f g
        · rw [if_pos hf]
          simp only [List.zip_cons_cons, List.countP_cons, gcnt_cons, ih]
          by_cases hc : g = c
          · subst hc
            simp only [decrPool, if_pos rfl]
            have h1 : gcnt gs ts g - min (gcnt gs ts g) (f g - 1)
                = gcnt gs ts g + 1 - min (gcnt gs ts g + 1) (f g) := by
              omega
            simp [hgt, h1]
          · have hcg : ¬c = g := fun hh => hc hh.symm
            simp only [decrPool, if_neg hcg]
            simp [hc]
        · rw [if_neg hf]
          simp only [List.zip_cons_cons, List.countP_cons, gcnt_cons, ih]
          by_cases hc : g = c
          · subst hc
            have hf0 : f g = 0 := by omega
            simp [hgt, hf0]
          · simp [hc]

theorem lw_translate : ∀ (gs ts ws : List Nat) (f : Nat → Nat) (c : Nat),
    gs.length = ts.length → gs.length = ws.length →
    (ws.zip (cluesCnt gs ts f)).countP (fun p => p.1 == c && !(p.2 == Clue.R))
      = lcnt gs ts ws c := by
  intro gs
  induction gs with
  | nil =>
    intro ts ws f c h1 h2
    have : ws = [] := List.eq_nil_of_length_eq_zero h2.symm
    simp [this, cluesCnt, lcnt]
  | cons g gs ih =>
    intro ts ws f c h1 h2
    cases ts with
    | nil => simp at h1
    | cons t ts =>
      cases ws with
      | nil => simp at h2
      | cons w ws =>
        simp only [List.length_cons, Nat.succ.injEq] at h1 h2
        have hrec : ∀ f' : Nat → Nat,
            (ws.zip (cluesCnt gs ts f')).countP (fun p => p.1 == c && !(p.2 == Clue.R))
              = ((gs.zip ts).zip ws).countP (fun q => !(q.1.1 == q.1.2) && q.2 == c) := by
          intro f'
          simpa [lcnt] using ih ts ws f' c h1 h2
        simp only [lcnt, List.zip_cons_cons, List.countP_cons]
        by_cases hgt : g = t
        · rw [show cluesCnt (g :: gs) (t :: ts) f = Clue.R :: cluesCnt gs ts f by
            simp [cluesCnt, hgt]]
          simp only [List.zip_cons_cons, List.countP_cons, hrec]
          simp [hgt]
        · by_cases hf : 0 < f g
          · rw [show cluesCnt (g :: gs) (t :: ts) f
                = Clue.W :: cluesCnt gs ts (decrPool f g) by
              simp [cluesCnt, hgt, hf]]
            simp only [List.zip_cons_cons, List.countP_cons, hrec]
            by_cases hwc : w = c <;> simp [hwc, hgt]
          · rw [show cluesCnt (g :: gs) (t :: ts) f = Clue.A :: cluesCnt gs ts f by
              simp [cluesCnt, hgt, hf]]
            simp only [List.zip_cons_cons, List.countP_cons, hrec]
            by_cases hwc : w = c <;> simp [hwc, hgt]

theorem posCheck_translate : ∀ (gs ts ws : List Nat) (f : Nat → Nat),
    gs.length = ts.length → gs.length = ws.length →
    ((gs.zip ws).zip (cluesCnt gs ts f)).all
        (fun q => !(q.1.1 == q.1.2 && !(q.2 == Clue.R))
          && !(!(q.1.1 == q.1.2) && q.2 == Clue.R))
      = ((gs.zip ts).zip ws).all (fun q => (q.1.1 == q.1.2) == (q.1.1 == q.2)) := by
  intro gs
  induction gs with
  | nil =>
    intro ts ws f h1 h2
    have : ws = [] := List.eq_nil_of_length_eq_zero h2.symm
    simp [this]
  | cons g gs ih =>
    intro ts ws f h1 h2
    cases ts with
    | nil => simp at h1
    | cons t ts =>
      cases ws with
      | nil => simp at h2
      | cons w ws =>
        simp only [List.length_cons, Nat.succ.injEq] at h1 h2
        by_cases hgt : g = t
        · rw [show cluesCnt (g :: gs) (t :: ts) f = Clue.R :: cluesCnt gs ts f by
            simp [cluesCnt, hgt]]
          simp only [List.zip_cons_cons, List.all_cons, ih ts ws f h1 h2]
          congr 1
          by_cases hgw : g = w
          · subst hgw
            simp [hgt]
          · simp [hgw, hgt]
        · by_cases hf : 0 < f g
          · rw [show cluesCnt (g :: gs) (t :: ts) f
                = Clue.W :: cluesCnt gs ts (decrPool f g) by
              simp [cluesCnt, hgt, hf]]
            simp only [List.zip_cons_cons, List.all_cons, ih ts ws _ h1 h2]
            congr 1
            have ht : (g == t) = false := by simp [hgt]
            by_cases hgw : g = w
            · subst hgw
              simp [ht]
            · have hw : (g == w) = false := by simp [hgw]
              simp [ht, hw]
          · rw [show cluesCnt (g :: gs) (t :: ts) f = Clue.A :: cluesCnt gs ts f by
              simp [cluesCnt, hgt, hf]]
            simp only [List.zip_cons_cons, List.all_cons, ih ts ws _ h1 h2]
            congr 1
            have ht : (g == t) = false := by simp [hgt]
            by_cases hgw : g = w
            · subst hgw
              simp [ht]
            · have hw : (g == w) = false := by simp [hgw]
              simp [ht, hw]

theorem posOK_iff_all (gs ts ws : List Nat) :
    (((gs.zip ts).zip ws).all (fun q => (q.1.1 == q.1.2) == (q.1.1 == q.2)) = true)
      ↔ posOK gs ts ws := by
  simp only [List.all_eq_true, posOK]
  constructor
  · intro h q hq
    have := h q hq
    simpa [beq_eq_beq] using this
  · intro h q hq
    have := h q hq
    simpa [beq_eq_beq] using this

/-- Identical clue sequences force the `RightPosition` agreement between the
two targets. -/
theorem posOK_of_eq : ∀ (gs ts ws : List Nat) (f h : Nat → Nat),
    gs.length = ts.length → gs.length = ws.length →
    cluesCnt gs ws h = cluesCnt gs ts f → posOK gs ts ws := by
  intro gs
  induction gs with
  | nil =>
    intro ts ws f h h1 h2 _
    have : ws = [] := List.eq_nil_of_length_eq_zero h2.symm
    simp [this, posOK]
  | cons g gs ih =>
    intro ts ws f h h1 h2 heq
    cases ts with
    | nil => simp at h1
    | cons t ts =>
      cases ws with
      | nil => simp at h2
      | cons w ws =>
        simp only [List.length_cons, Nat.succ.injEq] at h1 h2
        have hstepT : ∃ s f', cluesCnt (g :: gs) (t :: ts) f = s :: cluesCnt gs ts f'
            ∧ (s = Clue.R ↔ g = t) := by
          by_cases hgt : g = t
          · exact ⟨Clue.R, f, by simp [cluesCnt, hgt], by simp [hgt]⟩
          · by_cases hf : 0 < f g
            · exact ⟨Clue.W, decrPool f g, by simp [cluesCnt, hgt, hf], by simp [hgt]⟩
            · exact ⟨Clue.A, f, by simp [cluesCnt, hgt, hf], by simp [hgt]⟩
        have hstepW : ∃ s h', cluesCnt (g :: gs) (w :: ws) h = s :: cluesCnt gs ws h'
            ∧ (s = Clue.R ↔ g = w) := by
          by_cases hgw : g = w
          · exact ⟨Clue.R, h, by simp [cluesCnt, hgw], by simp [hgw]⟩
          · by_cases hh : 0 < h g
            · exact ⟨Clue.W, decrPool h g, by simp [cluesCnt, hgw, hh], by simp [hgw]⟩
            · exact ⟨Clue.A, h, by simp [cluesCnt, hgw, hh], by simp [hgw]⟩
        obtain ⟨s1, f', hT, hTR⟩ := hstepT
        obtain ⟨s2, h', hW, hWR⟩ := hstepW
        rw [hT, hW] at heq
        injection heq with heqh heqt
        intro q hq
        simp only [List.zip_cons_cons, List.mem_cons] at hq
        rcases hq with rfl | hq
        · subst heqh
          simp only
          rw [← hTR, ← hWR]
        · exact ih ts ws f' h' h1 h2 heqt q hq

/-- Under `RightPosition` agreement, the candidate's leftover pool coincides
with `lcnt`, and its non-matching guess counts with `gcnt`. -/
theorem tcnt_posOK : ∀ (gs ts ws : List Nat), gs.length = ts.length →
    gs.length = ws.length → posOK gs ts ws →
    ∀ c, tcnt gs ws c = lcnt gs ts ws c := by
  intro gs
  induction gs with
  | nil =>
    intro ts ws h1 h2 _ c
    have : ws = [] := List.eq_nil_of_length_eq_zero h2.symm
    simp [this, tcnt, lcnt]
  | cons g gs ih =>
    intro ts ws h1 h2 hpos c
    cases ts with
    | nil => simp at h1
    | cons t ts =>
      cases ws with
      | nil => simp at h2
      | cons w ws =>
        simp only [List.length_cons, Nat.succ.injEq] at h1 h2
        have hhead : (g = t ↔ g = w) := hpos ((g, t), w) (by simp)
        have htail : posOK gs ts ws := fun q hq => hpos q (by simp [hq])
        rw [tcnt_cons]
        simp only [lcnt, List.zip_cons_cons, List.countP_cons]
        have hih := ih ts ws h1 h2 htail c
        simp only [lcnt] at hih
        rw [hih]
        have hite : (if w = c ∧ ¬g = w then 1 else 0)
            = (if (!(g == t) && (w == c)) = true then 1 else 0) := by
          by_cases hgt : g = t
          · have hgw : g = w := hhead.mp hgt
            rw [if_neg (by tauto), if_neg (by simp [hgt])]
          · have hgw : ¬g = w := fun hh => hgt (hhead.mpr hh)
            by_cases hwc : w = c
            · rw [if_pos ⟨hwc, hgw⟩, if_pos (by simp [hgt, hwc])]
            · rw [if_neg (by tauto), if_neg (by simp [hwc])]
        rw [hite]

theorem gcnt_posOK : ∀ (gs ts ws : List Nat), gs.length = ts.length →
    gs.length = ws.length → posOK gs ts ws →
    ∀ c, gcnt gs ws c = gcnt gs ts c := by
  intro gs
  induction gs with
  | nil =>
    intro ts ws h1 h2 _ c
    have : ws = [] := List.eq_nil_of_length_eq_zero h2.symm
    simp [this, gcnt]
  | cons g gs ih =>
    intro ts ws h1 h2 hpos c
    cases ts with
    | nil => simp at h1
    | cons t ts =>
      cases ws with
      | nil => simp at h2
      | cons w ws =>
        simp only [List.length_cons, Nat.succ.injEq] at h1 h2
        have hhead : (g = t ↔ g = w) := hpos ((g, t), w) (by simp)
        have htail : posOK gs ts ws := fun q hq => hpos q (by simp [hq])
        rw [gcnt_cons, gcnt_cons, ih ts ws h1 h2 htail c]
        by_cases hgt : g = t
        · have hgw : g = w := hhead.mp hgt
          rw [if_neg (by tauto), if_neg (by tauto)]
        · have hgw : ¬g = w := fun hh => hgt (hhead.mpr hh)
          by_cases hgc : g = c
          · rw [if_pos (And.intro hgc hgw), if_pos (And.intro hgc hgt)]
          · rw [if_neg (by tauto), if_neg (by tauto)]

/-- Extensionality: two pools that give the same capped supply
`min(non-matching occurrences, pool)` for every letter produce the same clue
sequence, provided the `RightPosition` positions agree. -/
theorem cluesCnt_ext : ∀ (gs ts ws : List Nat) (f h : Nat → Nat),
    gs.length = ts.length → gs.length = ws.length →
    posOK gs ts ws →
    (∀ c, min (gcnt gs ts c) (h c) = min (gcnt gs ts c) (f c)) →
    cluesCnt gs ws h = cluesCnt gs ts f := by
  intro gs
  induction gs with
  | nil =>
    intro ts ws f h h1 h2 _ _
    have : ws = [] := List.eq_nil_of_length_eq_zero h2.symm
    cases ts <;> simp [this, cluesCnt]
  | cons g gs ih =>
    intro ts ws f h h1 h2 hpos hmin
    cases ts with
    | nil => simp at h1
    | cons t ts =>
      cases ws with
      | nil => simp at h2
      | cons w ws =>
        simp only [List.length_cons, Nat.succ.injEq] at h1 h2
        have hhead : (g = t ↔ g = w) := hpos ((g, t), w) (by simp)
        have htail : posOK gs ts ws := fun q hq => hpos q (by simp [hq])
        by_cases hgt : g = t
        · have hgw : g = w := hhead.mp hgt
          rw [show cluesCnt (g :: gs) (t :: ts) f = Clue.R :: cluesCnt gs ts f by
            simp [cluesCnt, hgt],
            show cluesCnt (g :: gs) (w :: ws) h = Clue.R :: cluesCnt gs ws h by
            simp [cluesCnt, hgw]]
          have hmin' : ∀ c, min (gcnt gs ts c) (h c) = min (gcnt gs ts c) (f c) := by
            intro c
            have hmc := hmin c
            rw [gcnt_cons, if_neg (fun hh => hh.2 hgt), Nat.add_zero] at hmc
            exact hmc
          rw [ih ts ws f h h1 h2 htail hmin']
        · have hgw : ¬g = w := fun hw => hgt (hhead.mpr hw)
          have hmg := hmin g
          rw [gcnt_cons, if_pos (And.intro rfl hgt)] at hmg
          have hminc : ∀ c, ¬c = g →
              min (gcnt gs ts c) (h c) = min (gcnt gs ts c) (f c) := by
            intro c hc
            have hmc := hmin c
            rw [gcnt_cons, if_neg (fun hh => hc hh.1.symm), Nat.add_zero] at hmc
            exact hmc
          by_cases hf : 0 < f g
          · have hh : 0 < h g := by omega
            rw [show cluesCnt (g :: gs) (t :: ts) f
                = Clue.W :: cluesCnt gs ts (decrPool f g) by
              simp [cluesCnt, hgt, hf],
              show cluesCnt (g :: gs) (w :: ws) h
                = Clue.W :: cluesCnt gs ws (decrPool h g) by
              simp [cluesCnt, hgw, hh]]
            have hmin' : ∀ c, min (gcnt gs ts c) (decrPool h g c)
                = min (gcnt gs ts c) (decrPool f g c) := by
              intro c
              by_cases hc : c = g
              · subst hc
                have e1 : decrPool h c c = h c - 1 := by simp [decrPool]
                have e2 : decrPool f c c = f c - 1 := by simp [decrPool]
                rw [e1, e2]
                omega
              · simp only [decrPool, if_neg hc]
                exact hminc c hc
            rw [ih ts ws _ _ h1 h2 htail hmin']
          · have hh : ¬0 < h g := by omega
            rw [show cluesCnt (g :: gs) (t :: ts) f = Clue.A :: cluesCnt gs ts f by
              simp [cluesCnt, hgt, hf],
              show cluesCnt (g :: gs) (w :: ws) h = Clue.A :: cluesCnt gs ws h by
              simp [cluesCnt, hgw, hh]]
            have hmin' : ∀ c, min (gcnt gs ts c) (h c) = min (gcnt gs ts c) (f c) := by
              intro c
              by_cases hc : c = g
              · subst hc; omega
              · exact hminc c hc
            rw [ih ts ws f h h1 h2 htail hmin']

/-- Producing identical Clue Sequences is equivalent to: `RightPosition`
agreement plus, for every letter, an identical capped leftover supply. -/
theorem sameClues_iff (gs ts ws : List Nat)
    (h1 : gs.length = ts.length) (h2 : gs.length = ws.length) :
    clues_of_guess gs ws = clues_of_guess gs ts
      ↔ posOK gs ts ws
        ∧ ∀ c, min (gcnt gs ts c) (lcnt gs ts ws c) = wpv gs ts c := by
  rw [clues_of_guess_eq_cluesCnt, clues_of_guess_eq_cluesCnt]
  constructor
  · intro heq
    have hpos : posOK gs ts ws := posOK_of_eq gs ts ws _ _ h1 h2 heq
    refine ⟨hpos, fun c => ?_⟩
    have hwW := wp_count gs ws (tcnt gs ws) c
    rw [heq, wp_count gs ts (tcnt gs ts) c] at hwW
    rw [gcnt_posOK gs ts ws h1 h2 hpos c, tcnt_posOK gs ts ws h1 h2 hpos c] at hwW
    simp only [wpv]
    exact hwW.symm
  · rintro ⟨hpos, hmin⟩
    apply cluesCnt_ext gs ts ws _ _ h1 h2 hpos
    intro c
    rw [tcnt_posOK gs ts ws h1 h2 hpos c]
    simpa [wpv] using hmin c

theorem gcnt_eq_zero_of_big (gs ts : List Nat) (hg : ∀ x ∈ gs, x < 26)
    {c : Nat} (hc : 26 ≤ c) : gcnt gs ts c = 0 := by
  rw [gcnt, List.countP_eq_zero]
  intro p hp
  have hmem := (List.of_mem_zip hp).1
  have := hg p.1 hmem
  simp only [Bool.and_eq_true, beq_iff_eq]
  intro hcon
  omega

/-- The raw-clue possibility filter accepts exactly the words that would
reproduce the identical Clue Sequence. -/
theorem raw_iff_sameClues (gs ts ws : List Nat)
    (h1 : gs.length = ts.length) (h2 : gs.length = ws.length)
    (hg : ∀ x ∈ gs, x < 26) :
    is_word_possible_after_guess gs ws (clues_of_guess gs ts) = true
      ↔ clues_of_guess gs ws = clues_of_guess gs ts := by
  rw [sameClues_iff gs ts ws h1 h2]
  rw [is_word_possible_after_guess, Bool.and_eq_true, clues_of_guess_eq_cluesCnt,
    posCheck_translate gs ts ws _ h1 h2, posOK_iff_all]
  have hwp : ∀ c, wp_guess gs (cluesCnt gs ts (tcnt gs ts)) c = wpv gs ts c := by
    intro c
    rw [wp_guess, wp_count]
    rfl
  have hlw : ∀ c, left_word ws (cluesCnt gs ts (tcnt gs ts)) c = lcnt gs ts ws c := by
    intro c
    rw [left_word, lw_translate gs ts ws _ c h1 h2]
  have ha : ∀ c, a_guess gs (cluesCnt gs ts (tcnt gs ts)) c
      = gcnt gs ts c - wpv gs ts c := by
    intro c
    rw [a_guess, a_count]
    rfl
  simp only [hwp, hlw, ha, List.all_eq_true, List.mem_range, decide_eq_true_eq,
    Bool.and_eq_true, Bool.or_eq_true, beq_iff_eq]
  constructor
  · rintro ⟨hpos, hcnt⟩
    refine ⟨hpos, fun c => ?_⟩
    by_cases hc : c < 26
    · have hcc := hcnt c hc
      have hwpv : wpv gs ts c = min (gcnt gs ts c) (tcnt gs ts c) := rfl
      omega
    · have hg0 : gcnt gs ts c = 0 := gcnt_eq_zero_of_big gs ts hg (by omega)
      have hwpv : wpv gs ts c = min (gcnt gs ts c) (tcnt gs ts c) := rfl
      omega
  · rintro ⟨hpos, hmin⟩
    refine ⟨hpos, fun c _ => ?_⟩
    have hmc := hmin c
    have hwpv : wpv gs ts c = min (gcnt gs ts c) (tcnt gs ts c) := rfl
    omega

theorem cluesCnt_eq_replicate_iff : ∀ (gs ts : List Nat) (f : Nat → Nat),
    gs.length = ts.length →
    (cluesCnt gs ts f = List.replicate gs.length Clue.R ↔ gs = ts) := by
  intro gs
  induction gs with
  | nil =>
    intro ts f h1
    have : ts = [] := List.eq_nil_of_length_eq_zero h1.symm
    simp [this, cluesCnt]
  | cons g gs ih =>
    intro ts f h1
    cases ts with
    | nil => simp at h1
    | cons t ts =>
      simp only [List.length_cons, Nat.succ.injEq] at h1
      rw [List.length_cons, List.replicate_succ]
      by_cases hgt : g = t
      · rw [show cluesCnt (g :: gs) (t :: ts) f = Clue.R :: cluesCnt gs ts f by
          simp [cluesCnt, hgt]]
        simp [hgt, ih ts f h1]
      · by_cases hf : 0 < f g
        · rw [show cluesCnt (g :: gs) (t :: ts) f
              = Clue.W :: cluesCnt gs ts (decrPool f g) by
            simp [cluesCnt, hgt, hf]]
          simp [hgt]
        · rw [show cluesCnt (g :: gs) (t :: ts) f = Clue.A :: cluesCnt gs ts f by
            simp [cluesCnt, hgt, hf]]
          simp [hgt]

theorem clues_of_guess_self (gs : List Nat) :
    clues_of_guess gs gs = List.replicate gs.length Clue.R := by
  rw [clues_of_guess_eq_cluesCnt]
  exact (cluesCnt_eq_replicate_iff gs gs _ rfl).mpr rfl

/-! ### Sanity: the unit tests of `test_guess_clues` (words chopped) -/

/-- Test vector `clues_of_guess(5, "SWEAT", "FLEAS") = "WARRA"`. -/
theorem clues_SWEAT_FLEAS :
    clues_of_guess [18, 22, 4, 0, 19] [5, 11, 4, 0, 18] =
      [Clue.W, Clue.A, Clue.R, Clue.R, Clue.A] := by decide

/-- Test vector `clues_of_guess(5, "REELS", "REBUS") = "RRAAR"`. -/
theorem clues_REELS_REBUS :
    clues_of_guess [17, 4, 4, 11, 18] [17, 4, 1, 20, 18] =
      [Clue.R, Clue.R, Clue.A, Clue.A, Clue.R] := by decide

/-- Test vector `clues_of_guess(6, "EVENER", "SEVENS") = "WWWWAA"`. -/
theorem clues_EVENER_SEVENS :
    clues_of_guess [4, 21, 4, 13, 4, 17] [18, 4, 21, 4, 13, 18] =
      [Clue.W, Clue.W, Clue.W, Clue.W, Clue.A, Clue.A] := by decide

/-! ### The base-3 classification (`clunique`) -/

theorem cluesToNat_append (l : List Clue) (c : Clue) :
    cluesToNat (l ++ [c]) = 3 * cluesToNat l + clueTrit c := by
  simp [cluesToNat, List.foldl_append]

theorem clueTrit_lt_three (c : Clue) : clueTrit c < 3 := by
  cases c <;> simp [clueTrit]

theorem clueOfTrit_clueTrit (c : Clue) : clueOfTrit (clueTrit c) = c := by
  cases c <;> rfl

/-- Decoding the base-3 fold of a clue sequence reproduces the sequence. -/
theorem natToClues_cluesToNat (l : List Clue) :
    natToClues l.length (cluesToNat l) = l := by
  induction l using List.reverseRecOn with
  | nil => rfl
  | append_singleton l c ih =>
    have h3 := clueTrit_lt_three c
    rw [cluesToNat_append, List.length_append, List.length_singleton, natToClues,
      Nat.mul_add_div (by omega), Nat.mul_add_mod,
      Nat.div_eq_of_lt h3, Nat.mod_eq_of_lt h3, Nat.add_zero, ih,
      clueOfTrit_clueTrit]

/-- The fold `cl = 3*cl + trit` is exactly the base-3 numeral with the
leftmost position most significant (digits listed least-significant-first
for `Nat.ofDigits`). -/
theorem cluesToNat_eq_ofDigits (l : List Clue) :
    cluesToNat l = Nat.ofDigits (3 : Nat) ((l.map clueTrit).reverse) := by
  induction l using List.reverseRecOn with
  | nil => rfl
  | append_singleton l c ih =>
    rw [cluesToNat_append, List.map_append, List.reverse_append]
    simp only [List.map_cons, List.map_nil, List.reverse_cons, List.reverse_nil,
      List.nil_append, List.singleton_append, Nat.ofDigits_cons, ih]
    ring

theorem cluesCnt_length : ∀ (gs ts : List Nat) (f : Nat → Nat),
    (cluesCnt gs ts f).length = min gs.length ts.length := by
  intro gs
  induction gs with
  | nil => intro ts f; cases ts <;> simp [cluesCnt]
  | cons g gs ih =>
    intro ts f
    cases ts with
    | nil => simp [cluesCnt]
    | cons t ts =>
      by_cases hgt : g = t
      · rw [show cluesCnt (g :: gs) (t :: ts) f = Clue.R :: cluesCnt gs ts f by
          simp [cluesCnt, hgt]]
        simp [ih]
        omega
      · by_cases hf : 0 < f g
        · rw [show cluesCnt (g :: gs) (t :: ts) f
              = Clue.W :: cluesCnt gs ts (decrPool f g) by
            simp [cluesCnt, hgt, hf]]
          simp [ih]
          omega
        · rw [show cluesCnt (g :: gs) (t :: ts) f = Clue.A :: cluesCnt gs ts f by
            simp [cluesCnt, hgt, hf]]
          simp [ih]
          omega

theorem clues_of_guess_length (gs ts : List Nat) (h1 : gs.length = ts.length) :
    (clues_of_guess gs ts).length = gs.length := by
  rw [clues_of_guess_eq_cluesCnt, cluesCnt_length, ← h1, Nat.min_self]

/-! ### Characterizing the constraint compiler -/

theorem cvPass1_mb : ∀ (gs ts : List Nat) (f : Nat → Have),
    (cvPass1 gs ts f).1
      = (gs.zip ts).map (fun p => if p.1 = p.2 then some p.1 else none) := by
  intro gs
  induction gs with
  | nil => intro ts f; cases ts <;> rfl
  | cons g gs ih =>
    intro ts f
    cases ts with
    | nil => rfl
    | cons t ts =>
      by_cases hgt : g = t <;> simp [cvPass1, hgt, ih]

theorem cvPass1_mnb : ∀ (gs ts : List Nat) (f : Nat → Have),
    (cvPass1 gs ts f).2.1
      = (gs.zip ts).map (fun p => if p.1 = p.2 then 0 else 2 ^ p.1) := by
  intro gs
  induction gs with
  | nil => intro ts f; cases ts <;> rfl
  | cons g gs ih =>
    intro ts f
    cases ts with
    | nil => rfl
    | cons t ts =>
      by_cases hgt : g = t <;> simp [cvPass1, hgt, ih]

theorem cvPass1_lo : ∀ (gs ts : List Nat) (f : Nat → Have),
    (cvPass1 gs ts f).2.2.1 = initLeftovers gs ts := by
  intro gs
  induction gs with
  | nil => intro ts f; cases ts <;> rfl
  | cons g gs ih =>
    intro ts f
    cases ts with
    | nil => rfl
    | cons t ts =>
      by_cases hgt : g = t <;> simp [cvPass1, initLeftovers, hgt, ih]

theorem cvPass1_f : ∀ (gs ts : List Nat) (f : Nat → Have) (c : Nat),
    (cvPass1 gs ts f).2.2.2 c
      = { c := (f c).c, at_most := (f c).at_most - gcnt gs ts c,
          at_least := (f c).at_least + rcnt gs ts c } := by
  intro gs
  induction gs with
  | nil =>
    intro ts f c
    cases ts <;> simp [cvPass1, gcnt, rcnt]
  | cons g gs ih =>
    intro ts f c
    cases ts with
    | nil => simp [cvPass1, gcnt, rcnt]
    | cons t ts =>
      rw [gcnt_cons, rcnt_cons]
      by_cases hgt : g = t
      · rw [show (cvPass1 (g :: gs) (t :: ts) f).2.2.2
            = (cvPass1 gs ts (updHave f g { f g with
                at_least := (f g).at_least + 1 })).2.2.2 by
          simp [cvPass1, hgt]]
        rw [ih]
        by_cases hc : c = g
        · subst hc
          simp [updHave, hgt, Have.mk.injEq]
          omega
        · have hgc : ¬g = c := fun hh => hc hh.symm
          have hct : ¬c = t := fun hh => hc (by omega)
          have htc : ¬t = c := fun hh => hc (by omega)
          simp [updHave, hc, hct, htc, hgc, Have.mk.injEq]
      · rw [show (cvPass1 (g :: gs) (t :: ts) f).2.2.2
            = (cvPass1 gs ts (updHave f g { f g with
                at_most := (f g).at_most - 1 })).2.2.2 by
          simp [cvPass1, hgt]]
        rw [ih]
        by_cases hc : c = g
        · subst hc
          simp [updHave, hgt, Have.mk.injEq]
          omega
        · have hgc : ¬g = c := fun hh => hc hh.symm
          simp [updHave, hc, hgc, Have.mk.injEq]

theorem cvPass2_eq : ∀ (gs ts : List Nat) (lo : List (Option Nat))
    (mnb : List Nat) (f : Nat → Have),
    cvPass2 gs ts lo mnb f
      = (mnb.map (fun m => m ||| pass2M (gs.zip (cluesAux gs ts lo)) f),
         pass2F (gs.zip (cluesAux gs ts lo)) f) := by
  intro gs
  induction gs with
  | nil =>
    intro ts lo mnb f
    cases ts <;> simp [cvPass2, cluesAux, pass2M, pass2F, Nat.or_zero]
  | cons g gs ih =>
    intro ts lo mnb f
    cases ts with
    | nil => simp [cvPass2, cluesAux, pass2M, pass2F, Nat.or_zero]
    | cons t ts =>
      by_cases hgt : g = t
      · rw [show cluesAux (g :: gs) (t :: ts) lo = Clue.R :: cluesAux gs ts lo by
          simp [cluesAux, hgt]]
        rw [show cvPass2 (g :: gs) (t :: ts) lo mnb f = cvPass2 gs ts lo mnb f by
          simp [cvPass2, hgt]]
        rw [ih]
        rfl
      · cases hrem : removeFirst lo g with
        | some lo2 =>
          rw [show cluesAux (g :: gs) (t :: ts) lo = Clue.W :: cluesAux gs ts lo2 by
            simp [cluesAux, hgt, hrem]]
          rw [show cvPass2 (g :: gs) (t :: ts) lo mnb f
              = cvPass2 gs ts lo2 mnb (updHave f g { f g with
                  at_least := (f g).at_least + 1 }) by
            simp [cvPass2, hgt, hrem]]
          rw [ih]
          rfl
        | none =>
          rw [show cluesAux (g :: gs) (t :: ts) lo = Clue.A :: cluesAux gs ts lo by
            simp [cluesAux, hgt, hrem]]
          rw [show cvPass2 (g :: gs) (t :: ts) lo mnb f
              = cvPass2 gs ts lo
                  (if (f g).at_least = 0 then mnb.map (fun m => m ||| 2 ^ g) else mnb)
                  (updHave f g { f g with at_most := (f g).at_least }) by
            simp [cvPass2, hgt, hrem]]
          rw [ih]
          show _ = (mnb.map (fun m => m |||
              ((if (f g).at_least = 0 then 2 ^ g else 0) ||| pass2M _ _)), _)
          by_cases hz : (f g).at_least = 0
          · simp only [if_pos hz, List.map_map]
            refine Prod.ext ?_ rfl
            apply List.map_congr_left
            intro m _
            simp [Function.comp, Nat.or_assoc, List.zip]
          · simp only [if_neg hz]
            refine Prod.ext ?_ rfl
            apply List.map_congr_left
            intro m _
            simp [Nat.zero_or, List.zip]

theorem updHave_self (f : Nat → Have) (g : Nat) (h : Have) : updHave f g h g = h := by
  simp [updHave]

theorem updHave_other (f : Nat → Have) (g : Nat) (h : Have) {c : Nat} (hc : ¬c = g) :
    updHave f g h c = f c := by
  simp [updHave, hc]

theorem pass2F_proj : ∀ (steps : List (Nat × Clue)) (f : Nat → Have) (c : Nat),
    pass2F steps f c = pass2FC (projClues c steps) (f c) := by
  intro steps
  induction steps with
  | nil => intro f c; rfl
  | cons p rest ih =>
    intro f c
    obtain ⟨g, s⟩ := p
    by_cases hgc : g = c
    · subst hgc
      cases s with
      | A =>
        rw [show projClues g ((g, Clue.A) :: rest) = Clue.A :: projClues g rest by
            simp [projClues],
          show pass2F ((g, Clue.A) :: rest) f
            = pass2F rest (updHave f g { f g with at_most := (f g).at_least }) from rfl,
          ih, pass2FC, updHave_self]
      | W =>
        rw [show projClues g ((g, Clue.W) :: rest) = Clue.W :: projClues g rest by
            simp [projClues],
          show pass2F ((g, Clue.W) :: rest) f
            = pass2F rest (updHave f g { f g with at_least := (f g).at_least + 1 }) from rfl,
          ih, pass2FC, updHave_self]
      | R =>
        rw [show projClues g ((g, Clue.R) :: rest) = Clue.R :: projClues g rest by
            simp [projClues],
          show pass2F ((g, Clue.R) :: rest) f = pass2F rest f from rfl,
          ih, pass2FC]
    · have hcg : ¬c = g := fun hh => hgc hh.symm
      have hproj : projClues c ((g, s) :: rest) = projClues c rest := by
        simp [projClues, hgc]
      cases s with
      | A => rw [hproj, show pass2F ((g, Clue.A) :: rest) f
            = pass2F rest (updHave f g { f g with at_most := (f g).at_least }) from rfl,
          ih, updHave_other f g _ hcg]
      | W => rw [hproj, show pass2F ((g, Clue.W) :: rest) f
            = pass2F rest (updHave f g { f g with at_least := (f g).at_least + 1 }) from rfl,
          ih, updHave_other f g _ hcg]
      | R => rw [hproj, show pass2F ((g, Clue.R) :: rest) f = pass2F rest f from rfl, ih]

theorem pass2M_testBit : ∀ (steps : List (Nat × Clue)) (f : Nat → Have) (b : Nat),
    (pass2M steps f).testBit b = pass2MC (projClues b steps) (f b) := by
  intro steps
  induction steps with
  | nil => intro f b; simp [pass2M, projClues, pass2MC, Nat.zero_testBit]
  | cons p rest ih =>
    intro f b
    obtain ⟨g, s⟩ := p
    by_cases hgb : g = b
    · subst hgb
      cases s with
      | A =>
        rw [show pass2M ((g, Clue.A) :: rest) f
            = (if (f g).at_least = 0 then 2 ^ g else 0) |||
                pass2M rest (updHave f g { f g with at_most := (f g).at_least }) from rfl,
          show projClues g ((g, Clue.A) :: rest) = Clue.A :: projClues g rest by
            simp [projClues],
          Nat.testBit_or, ih, pass2MC, updHave_self]
        by_cases hz : (f g).at_least = 0
        · simp [hz, Nat.testBit_two_pow]
        · simp [hz, Nat.zero_testBit]
      | W =>
        rw [show pass2M ((g, Clue.W) :: rest) f
            = pass2M rest (updHave f g { f g with at_least := (f g).at_least + 1 }) from rfl,
          show projClues g ((g, Clue.W) :: rest) = Clue.W :: projClues g rest by
            simp [projClues],
          ih, pass2MC, updHave_self]
      | R =>
        rw [show pass2M ((g, Clue.R) :: rest) f = pass2M rest f from rfl,
          show projClues g ((g, Clue.R) :: rest) = Clue.R :: projClues g rest by
            simp [projClues],
          ih, pass2MC]
    · have hbg : ¬b = g := fun hh => hgb hh.symm
      have hproj : projClues b ((g, s) :: rest) = projClues b rest := by
        simp [projClues, hgb]
      cases s with
      | A =>
        rw [show pass2M ((g, Clue.A) :: rest) f
            = (if (f g).at_least = 0 then 2 ^ g else 0) |||
                pass2M rest (updHave f g { f g with at_most := (f g).at_least }) from rfl,
          hproj, Nat.testBit_or, ih, updHave_other f g _ hbg]
        by_cases hz : (f g).at_least = 0
        · simp [hz, Nat.testBit_two_pow, hgb]
        · simp [hz, Nat.zero_testBit]
      | W =>
        rw [show pass2M ((g, Clue.W) :: rest) f
            = pass2M rest (updHave f g { f g with at_least := (f g).at_least + 1 }) from rfl,
          hproj, ih, updHave_other f g _ hbg]
      | R =>
        rw [show pass2M ((g, Clue.R) :: rest) f = pass2M rest f from rfl, hproj, ih]

theorem pass2FC_filterR : ∀ (l : List Clue) (h : Have),
    pass2FC l h = pass2FC (l.filter (fun s => !(s == Clue.R))) h := by
  intro l
  induction l with
  | nil => intro h; rfl
  | cons s r ih =>
    intro h
    cases s <;> simp [pass2FC, List.filter, ih]

theorem pass2MC_filterR : ∀ (l : List Clue) (h : Have),
    pass2MC l h = pass2MC (l.filter (fun s => !(s == Clue.R))) h := by
  intro l
  induction l with
  | nil => intro h; rfl
  | cons s r ih =>
    intro h
    cases s <;> simp [pass2MC, List.filter, ih]

/-- Per letter, the non-`RightPosition` clues come as a block of
`WrongPosition`s followed by a block of `Absent`s: the pool only shrinks, so
once it runs dry for a letter it stays dry. -/
theorem projWA : ∀ (gs ts : List Nat) (f : Nat → Nat) (c : Nat),
    (projClues c (gs.zip (cluesCnt gs ts f))).filter (fun s => !(s == Clue.R))
      = List.replicate (min (gcnt gs ts c) (f c)) Clue.W
        ++ List.replicate (gcnt gs ts c - min (gcnt gs ts c) (f c)) Clue.A := by
  intro gs
  induction gs with
  | nil => intro ts f c; simp [cluesCnt, projClues, gcnt]
  | cons g gs ih =>
    intro ts f c
    cases ts with
    | nil => simp [cluesCnt, projClues, gcnt]
    | cons t ts =>
      rw [gcnt_cons]
      by_cases hgt : g = t
      · rw [show cluesCnt (g :: gs) (t :: ts) f = Clue.R :: cluesCnt gs ts f by
          simp [cluesCnt, hgt]]
        by_cases hgc : g = c
        · rw [List.zip_cons_cons,
            show projClues c ((g, Clue.R) :: gs.zip (cluesCnt gs ts f))
              = Clue.R :: projClues c (gs.zip (cluesCnt gs ts f)) by
              simp [projClues, hgc]]
          simp only [List.filter, clue_beq_RR, Bool.not_true, ih, if_neg]
          simp [hgt]
        · rw [List.zip_cons_cons,
            show projClues c ((g, Clue.R) :: gs.zip (cluesCnt gs ts f))
              = projClues c (gs.zip (cluesCnt gs ts f)) by
              simp [projClues, hgc]]
          simp [ih, hgt]
      · by_cases hf : 0 < f g
        · rw [show cluesCnt (g :: gs) (t :: ts) f
              = Clue.W :: cluesCnt gs ts (decrPool f g) by
            simp [cluesCnt, hgt, hf]]
          by_cases hgc : g = c
          · subst hgc
            rw [List.zip_cons_cons,
              show projClues g ((g, Clue.W) :: gs.zip (cluesCnt gs ts (decrPool f g)))
                = Clue.W :: projClues g (gs.zip (cluesCnt gs ts (decrPool f g))) by
                simp [projClues]]
            rw [show (Clue.W :: projClues g (gs.zip (cluesCnt gs ts (decrPool f g)))).filter
                  (fun s => !(s == Clue.R))
                = Clue.W :: (projClues g (gs.zip (cluesCnt gs ts (decrPool f g)))).filter
                  (fun s => !(s == Clue.R)) by simp [List.filter]]
            rw [ih]
            have hd : decrPool f g g = f g - 1 := by simp [decrPool]
            rw [hd]
            have hmin : min (gcnt gs ts g + 1) (f g) = min (gcnt gs ts g) (f g - 1) + 1 := by
              omega
            rw [if_pos (And.intro rfl hgt), hmin, List.replicate_succ]
            have hs2 : gcnt gs ts g + 1 - (min (gcnt gs ts g) (f g - 1) + 1)
                = gcnt gs ts g - min (gcnt gs ts g) (f g - 1) := by
              omega
            rw [hs2]
            rfl
          · have hcg : ¬c = g := fun hh => hgc hh.symm
            rw [List.zip_cons_cons,
              show projClues c ((g, Clue.W) :: gs.zip (cluesCnt gs ts (decrPool f g)))
                = projClues c (gs.zip (cluesCnt gs ts (decrPool f g))) by
                simp [projClues, hgc]]
            rw [ih]
            have hd : decrPool f g c = f c := by simp [decrPool, hcg]
            rw [hd, if_neg (by tauto), Nat.add_zero]
        · rw [show cluesCnt (g :: gs) (t :: ts) f = Clue.A :: cluesCnt gs ts f by
            simp [cluesCnt, hgt, hf]]
          by_cases hgc : g = c
          · subst hgc
            rw [List.zip_cons_cons,
              show projClues g ((g, Clue.A) :: gs.zip (cluesCnt gs ts f))
                = Clue.A :: projClues g (gs.zip (cluesCnt gs ts f)) by
                simp [projClues]]
            rw [show (Clue.A :: projClues g (gs.zip (cluesCnt gs ts f))).filter
                  (fun s => !(s == Clue.R))
                = Clue.A :: (projClues g (gs.zip (cluesCnt gs ts f))).filter
                  (fun s => !(s == Clue.R)) by simp [List.filter]]
            rw [ih]
            have hf0 : f g = 0 := by omega
            rw [if_pos (And.intro rfl hgt), hf0]
            simp [List.replicate_succ]
          · have hcg : ¬c = g := fun hh => hgc hh.symm
            rw [List.zip_cons_cons,
              show projClues c ((g, Clue.A) :: gs.zip (cluesCnt gs ts f))
                = projClues c (gs.zip (cluesCnt gs ts f)) by
                simp [projClues, hgc]]
            rw [ih, if_neg (by tauto), Nat.add_zero]

theorem pass2FC_replicateW : ∀ (w : Nat) (l : List Clue) (h : Have),
    pass2FC (List.replicate w Clue.W ++ l) h
      = pass2FC l { h with at_least := h.at_least + w } := by
  intro w
  induction w with
  | zero => intro l h; simp [pass2FC]
  | succ w ih =>
    intro l h
    rw [List.replicate_succ, List.cons_append, pass2FC, ih]
    congr 1
    simp [Have.mk.injEq]
    omega

theorem pass2FC_replicateA : ∀ (a : Nat) (h : Have),
    pass2FC (List.replicate a Clue.A) h
      = if a = 0 then h else { h with at_most := h.at_least } := by
  intro a
  induction a with
  | zero => intro h; simp [pass2FC]
  | succ a ih =>
    intro h
    rw [List.replicate_succ, pass2FC, ih]
    by_cases ha : a = 0 <;> simp [ha]

theorem pass2MC_replicateW : ∀ (w : Nat) (l : List Clue) (h : Have),
    pass2MC (List.replicate w Clue.W ++ l) h
      = pass2MC l { h with at_least := h.at_least + w } := by
  intro w
  induction w with
  | zero => intro l h; simp [pass2MC]
  | succ w ih =>
    intro l h
    rw [List.replicate_succ, List.cons_append, pass2MC, ih]
    congr 1
    simp [Have.mk.injEq]
    omega

theorem pass2MC_replicateA : ∀ (a : Nat) (h : Have),
    pass2MC (List.replicate a Clue.A) h
      = (decide (0 < a) && (h.at_least == 0)) := by
  intro a
  induction a with
  | zero => intro h; simp [pass2MC]
  | succ a ih =>
    intro h
    rw [List.replicate_succ, pass2MC, ih]
    by_cases h0 : h.at_least = 0 <;> by_cases ha : a = 0 <;> simp [h0, ha]

theorem cv_mb (len : Nat) (gs ts : List Nat) :
    (cluevec_of_guess len gs ts).must_be
      = (gs.zip ts).map (fun p => if p.1 = p.2 then some p.1 else none) := by
  simp [cluevec_of_guess, cvPass1_mb]

theorem cv_mnb (len : Nat) (gs ts : List Nat) :
    (cluevec_of_guess len gs ts).must_not_be
      = (gs.zip ts).map
          (fun p => (if p.1 = p.2 then 0 else 2 ^ p.1) ||| cvMask len gs ts) := by
  simp only [cluevec_of_guess, cvPass1_lo, cvPass2_eq, cvPass1_mnb, cvMask, cvInit,
    List.map_map]
  rfl

theorem cv_haves (len : Nat) (gs ts : List Nat) :
    (cluevec_of_guess len gs ts).haves
      = trimHaves len (sortHaves ((List.range 26).map
          (pass2F (gs.zip (cluesAux gs ts (initLeftovers gs ts)))
            ((cvPass1 gs ts (cvInit len)).2.2.2)))) := by
  simp only [cluevec_of_guess, cvPass1_lo, cvPass2_eq, cvInit]
  rfl

theorem cvEntry_eq (len : Nat) (gs ts : List Nat) (c : Nat) :
    pass2F (gs.zip (cluesAux gs ts (initLeftovers gs ts)))
        ((cvPass1 gs ts (cvInit len)).2.2.2) c
      = { c := c, at_most := amF len gs ts c, at_least := alF gs ts c } := by
  rw [pass2F_proj, cvPass1_f, pass2FC_filterR, cluesAux_eq_cluesCnt,
    countSome_initLeftovers, projWA, cvInit]
  simp only
  rw [pass2FC_replicateW, pass2FC_replicateA]
  have hwle : min (gcnt gs ts c) (tcnt gs ts c) ≤ gcnt gs ts c := Nat.min_le_left _ _
  by_cases ha : gcnt gs ts c - min (gcnt gs ts c) (tcnt gs ts c) = 0
  · rw [if_pos ha]
    unfold amF alF wpv
    rw [if_pos (by omega : gcnt gs ts c = min (gcnt gs ts c) (tcnt gs ts c))]
    simp [Have.mk.injEq] <;> omega
  · rw [if_neg ha]
    unfold amF alF wpv
    rw [if_neg (by omega : ¬gcnt gs ts c = min (gcnt gs ts c) (tcnt gs ts c))]
    simp [Have.mk.injEq] <;> omega

theorem cvMask_testBit (len : Nat) (gs ts : List Nat) (b : Nat) :
    (cvMask len gs ts).testBit b
      = (decide (wpv gs ts b < gcnt gs ts b) && (alF gs ts b == 0)) := by
  rw [cvMask, pass2M_testBit, cvPass1_f, pass2MC_filterR, cluesAux_eq_cluesCnt,
    countSome_initLeftovers, projWA, cvInit]
  simp only
  rw [pass2MC_replicateW, pass2MC_replicateA]
  unfold alF wpv
  simp only [Nat.zero_add]
  have hwle : min (gcnt gs ts b) (tcnt gs ts b) ≤ gcnt gs ts b := Nat.min_le_left _ _
  congr 1
  rw [decide_eq_decide]
  omega

theorem countP_three_le {α : Type} (p q r : α → Bool) : ∀ (l : List α),
    (∀ x ∈ l, ¬(p x = true ∧ q x = true) ∧ ¬(p x = true ∧ r x = true)
      ∧ ¬(q x = true ∧ r x = true)) →
    l.countP p + l.countP q + l.countP r ≤ l.length := by
  intro l
  induction l with
  | nil => intro _; simp
  | cons x xs ih =>
    intro hx
    have hhead := hx x (by simp)
    have htail := ih (fun y hy => hx y (List.mem_cons_of_mem x hy))
    simp only [List.countP_cons, List.length_cons]
    by_cases hp : p x = true <;> by_cases hq : q x = true <;> by_cases hr : r x = true
    · exact absurd (And.intro hp hq) hhead.1
    · exact absurd (And.intro hp hq) hhead.1
    · exact absurd (And.intro hp hr) hhead.2.1
    · simp [hp, hq, hr]
      omega
    · exact absurd (And.intro hq hr) hhead.2.2
    · simp [hp, hq, hr]
      omega
    · simp [hp, hq, hr]
      omega
    · simp [hp, hq, hr]
      omega

theorem counts_le_len (gs ts : List Nat) (c : Nat) (h1 : gs.length = ts.length) :
    rcnt gs ts c + gcnt gs ts c + tcnt gs ts c ≤ gs.length := by
  have hlen : (gs.zip ts).length = gs.length := by
    rw [List.length_zip, h1, Nat.min_self]
  rw [← hlen, rcnt, gcnt, tcnt]
  apply countP_three_le
  intro x _
  by_cases e1 : x.1 = c <;> by_cases e2 : x.2 = c <;> by_cases e3 : x.1 = x.2 <;>
    simp [e1, e2, e3] <;> omega

theorem alF_le_amF (len : Nat) (gs ts : List Nat) (c : Nat)
    (h1 : gs.length = ts.length) (hlen : gs.length ≤ len) :
    alF gs ts c ≤ amF len gs ts c := by
  have hc := counts_le_len gs ts c h1
  have hw : wpv gs ts c ≤ tcnt gs ts c := Nat.min_le_right _ _
  rw [alF, amF]
  by_cases ha : gcnt gs ts c = wpv gs ts c
  · rw [if_pos ha]
    omega
  · rw [if_neg ha]
    rfl

theorem alF_zero_amF (len : Nat) (gs ts : List Nat) (c : Nat) :
    alF gs ts c = 0 → amF len gs ts c = 0 ∨ amF len gs ts c = len := by
  intro h0
  rw [alF] at h0
  rw [amF]
  by_cases ha : gcnt gs ts c = wpv gs ts c
  · rw [if_pos ha]
    right
    omega
  · rw [if_neg ha]
    left
    rw [alF]
    omega

theorem posOK_cons (g t w : Nat) (gs ts ws : List Nat) :
    posOK (g :: gs) (t :: ts) (w :: ws) ↔ ((g = t ↔ g = w) ∧ posOK gs ts ws) := by
  constructor
  · intro h
    exact ⟨h ((g, t), w) (by simp), fun q hq => h q (by simp [hq])⟩
  · rintro ⟨hh, ht⟩ q hq
    simp only [List.zip_cons_cons, List.mem_cons] at hq
    rcases hq with rfl | hq
    · exact hh
    · exact ht q hq

/-- The sorted-and-trimmed count-range scan checks exactly the entries with a
positive `at_least`: sorting puts them first, and the first uninformative
entry (which the trim turns into the sentinel) is followed only by
uninformative ones. -/
theorem checkHaves_sorted_trim (len : Nat) (cnt : Nat → Nat) :
    ∀ l : List Have, List.Sorted haveBefore l →
    (∀ h ∈ l, h.at_least ≤ h.at_most
      ∧ (h.at_least = 0 → h.at_most = 0 ∨ h.at_most = len) ∧ h.c < 26) →
    (checkHaves cnt (trimHaves len l) = true
      ↔ ∀ h ∈ l, 0 < h.at_least → (h.at_least ≤ cnt h.c ∧ cnt h.c ≤ h.at_most)) := by
  intro l
  induction l with
  | nil => intro _ _; simp [trimHaves, checkHaves]
  | cons h t ih =>
    intro hsort hcond
    rw [List.sorted_cons] at hsort
    obtain ⟨hhb, hst⟩ := hsort
    obtain ⟨hle, hzero, hc26⟩ := hcond h (by simp)
    have hcondt := fun b hb => hcond b (List.mem_cons_of_mem h hb)
    by_cases hun : h.at_most = 0 ∨ (h.at_least = 0 ∧ h.at_most = len)
    · have hal0 : h.at_least = 0 := by omega
      rw [show trimHaves len (h :: t) = { h with c := 255 } :: t by
        simp [trimHaves, hun]]
      rw [show checkHaves cnt ({ h with c := 255 } :: t) = true by
        simp [checkHaves]]
      have hRHS : ∀ b ∈ h :: t, 0 < b.at_least
          → (b.at_least ≤ cnt b.c ∧ cnt b.c ≤ b.at_most) := by
        intro b hb hpos
        rcases List.mem_cons.mp hb with rfl | hbt
        · omega
        · have := hhb b hbt
          unfold haveBefore at this
          omega
      constructor
      · intro _
        exact hRHS
      · intro _
        rfl
    · have hal : 0 < h.at_least := by
        rcases Nat.eq_zero_or_pos h.at_least with h0 | h0
        · rcases hzero h0 with hm | hm
          · exact absurd (Or.inl hm) hun
          · exact absurd (Or.inr (And.intro h0 hm)) hun
        · exact h0
      rw [show trimHaves len (h :: t) = h :: trimHaves len t by
        simp [trimHaves, hun]]
      have hstep : checkHaves cnt (h :: trimHaves len t)
          = (if cnt h.c < h.at_least then false
             else if h.at_most < cnt h.c then false
             else checkHaves cnt (trimHaves len t)) := by
        simp only [checkHaves]
        rw [if_neg (by omega : ¬h.c = 255)]
      rw [hstep]
      by_cases hlt : cnt h.c < h.at_least
      · rw [if_pos hlt]
        constructor
        · intro hfalse
          cases hfalse
        · intro hRHS
          have := (hRHS h (by simp) hal).1
          exact absurd this (by omega)
      · rw [if_neg hlt]
        by_cases hmt : h.at_most < cnt h.c
        · rw [if_pos hmt]
          constructor
          · intro hfalse
            cases hfalse
          · intro hRHS
            have := (hRHS h (by simp) hal).2
            exact absurd this (by omega)
        · rw [if_neg hmt]
          rw [ih hst hcondt]
          constructor
          · intro hrest b hb hpos
            rcases List.mem_cons.mp hb with rfl | hbt
            · exact ⟨by omega, by omega⟩
            · exact hrest b hbt hpos
          · intro hall b hbt hpos
            exact hall b (by simp [hbt]) hpos

/-- The count-range scan of the compiled Constraint Object decides exactly
the informative per-letter ranges. -/
theorem checkHaves_cv (len : Nat) (gs ts : List Nat) (cnt : Nat → Nat)
    (h1 : gs.length = ts.length) (hlen : gs.length ≤ len) :
    (checkHaves cnt (cluevec_of_guess len gs ts).haves = true
      ↔ ∀ c, c < 26 → 0 < alF gs ts c
          → (alF gs ts c ≤ cnt c ∧ cnt c ≤ amF len gs ts c)) := by
  rw [cv_haves]
  have hmem0 : ∀ h : Have, h ∈ sortHaves ((List.range 26).map
      (pass2F (gs.zip (cluesAux gs ts (initLeftovers gs ts)))
        ((cvPass1 gs ts (cvInit len)).2.2.2)))
      ↔ ∃ c, c < 26 ∧ h = { c := c, at_most := amF len gs ts c, at_least := alF gs ts c } := by
    intro h
    rw [sortHaves, List.mem_insertionSort, List.mem_map]
    constructor
    · rintro ⟨c, hcr, hFc⟩
      exact ⟨c, List.mem_range.mp hcr, by rw [← hFc, cvEntry_eq]⟩
    · rintro ⟨c, hc, rfl⟩
      exact ⟨c, List.mem_range.mpr hc, cvEntry_eq len gs ts c⟩
  have hsorted : List.Sorted haveBefore (sortHaves ((List.range 26).map
      (pass2F (gs.zip (cluesAux gs ts (initLeftovers gs ts)))
        ((cvPass1 gs ts (cvInit len)).2.2.2)))) := by
    rw [sortHaves]
    exact List.sorted_insertionSort haveBefore _
  rw [checkHaves_sorted_trim len cnt _ hsorted
    (by
      intro h hm
      obtain ⟨c, hc, rfl⟩ := (hmem0 h).mp hm
      refine ⟨alF_le_amF len gs ts c h1 hlen, alF_zero_amF len gs ts c, by simpa using hc⟩)]
  constructor
  · intro hall c hc hpos
    exact hall _ ((hmem0 _).mpr ⟨c, hc, rfl⟩) hpos
  · intro hall h hm hpos
    obtain ⟨c, hc, rfl⟩ := (hmem0 h).mp hm
    exact hall c hc hpos

/-- The per-position checks of the compiled filter decide exactly:
`RightPosition` agreement with the original target, plus absence of every
globally-banned letter. -/
theorem posPart_iff : ∀ (gs ts ws : List Nat) (M : Nat),
    gs.length = ts.length → gs.length = ws.length →
    (((ws.zip (((gs.zip ts).map (fun p => if p.1 = p.2 then some p.1 else none)).zip
        ((gs.zip ts).map (fun p => (if p.1 = p.2 then 0 else 2 ^ p.1) ||| M)))).all
      (fun q => (match q.2.1 with
         | some g => g == q.1
         | none => true) && !(q.2.2.testBit q.1))) = true
      ↔ (posOK gs ts ws ∧ ∀ x ∈ ws, M.testBit x = false)) := by
  intro gs
  induction gs with
  | nil =>
    intro ts ws M h1 h2
    have hw : ws = [] := List.eq_nil_of_length_eq_zero h2.symm
    simp [hw, posOK]
  | cons g gs ih =>
    intro ts ws M h1 h2
    cases ts with
    | nil => simp at h1
    | cons t ts =>
      cases ws with
      | nil => simp at h2
      | cons w ws =>
        simp only [List.length_cons, Nat.succ.injEq] at h1 h2
        simp only [List.zip_cons_cons, List.map_cons, List.all_cons, Bool.and_eq_true]
        rw [ih ts ws M h1 h2, posOK_cons, List.forall_mem_cons]
        by_cases hgt : g = t
        · simp only [if_pos hgt, Nat.zero_or]
          simp [hgt, Bool.not_eq_true']
          tauto
        · simp only [if_neg hgt]
          simp [hgt, Nat.testBit_or, Nat.testBit_two_pow, Bool.not_eq_true']
          tauto

/-- Under `RightPosition` agreement, the candidate's letter count splits into
its leftover count plus the matched positions. -/
theorem count_split : ∀ (gs ts ws : List Nat), gs.length = ts.length →
    gs.length = ws.length → posOK gs ts ws →
    ∀ c, ws.count c = lcnt gs ts ws c + rcnt gs ts c := by
  intro gs
  induction gs with
  | nil =>
    intro ts ws h1 h2 _ c
    have hw : ws = [] := List.eq_nil_of_length_eq_zero h2.symm
    simp [hw, lcnt, rcnt]
  | cons g gs ih =>
    intro ts ws h1 h2 hpos c
    cases ts with
    | nil => simp at h1
    | cons t ts =>
      cases ws with
      | nil => simp at h2
      | cons w ws =>
        simp only [List.length_cons, Nat.succ.injEq] at h1 h2
        rw [posOK_cons] at hpos
        obtain ⟨hhead, htail⟩ := hpos
        have hih := ih ts ws h1 h2 htail c
        rw [rcnt_cons]
        simp only [lcnt, List.zip_cons_cons, List.countP_cons] at hih ⊢
        have hcount : (w :: ws).count c = ws.count c + (if w = c then 1 else 0) := by
          by_cases hwc : w = c <;> simp [List.count_cons, hwc]
        rw [hcount, hih]
        have hite : (if (!(g == t) && (w == c)) = true then 1 else 0)
              + (if g = c ∧ g = t then 1 else 0)
            = (if w = c then 1 else 0) := by
          have hb1 : ((!(g == t) && (w == c)) = true) ↔ (¬g = t ∧ w = c) := by
            simp
          simp only [hb1]
          by_cases hgt : g = t
          · have hgw : g = w := hhead.mp hgt
            split_ifs <;> omega
          · have hgw : ¬g = w := fun hh => hgt (hhead.mpr hh)
            split_ifs <;> omega
        omega

theorem gcnt_master : ∀ (gs ts ws : List Nat) (c : Nat), gs.length = ws.length →
    gcnt gs ts c = ((gs.zip ts).zip ws).countP (fun q => q.1.1 == c && !(q.1.1 == q.1.2)) := by
  intro gs
  induction gs with
  | nil => intro ts ws c _; simp [gcnt]
  | cons g gs ih =>
    intro ts ws c h2
    cases ts with
    | nil => simp [gcnt]
    | cons t ts =>
      cases ws with
      | nil => simp at h2
      | cons w ws =>
        simp only [List.length_cons, Nat.succ.injEq] at h2
        rw [gcnt_cons]
        simp only [List.zip_cons_cons, List.countP_cons]
        rw [← ih ts ws c h2]
        by_cases hgc : g = c <;> by_cases hgt : g = t <;> simp [hgc, hgt]

theorem rcnt_master : ∀ (gs ts ws : List Nat) (c : Nat), gs.length = ws.length →
    rcnt gs ts c = ((gs.zip ts).zip ws).countP (fun q => q.1.1 == c && q.1.1 == q.1.2) := by
  intro gs
  induction gs with
  | nil => intro ts ws c _; simp [rcnt]
  | cons g gs ih =>
    intro ts ws c h2
    cases ts with
    | nil => simp [rcnt]
    | cons t ts =>
      cases ws with
      | nil => simp at h2
      | cons w ws =>
        simp only [List.length_cons, Nat.succ.injEq] at h2
        rw [rcnt_cons]
        simp only [List.zip_cons_cons, List.countP_cons]
        rw [← ih ts ws c h2]
        by_cases hgc : g = c <;> by_cases hgt : g = t <;> simp [hgc, hgt]

/-- Under `RightPosition` agreement the three per-letter position classes of
a candidate are disjoint, so their counts fit in the word length. -/
theorem lcnt_bound (gs ts ws : List Nat) (c : Nat)
    (h1 : gs.length = ts.length) (h2 : gs.length = ws.length)
    (hpos : posOK gs ts ws) :
    lcnt gs ts ws c + gcnt gs ts c + rcnt gs ts c ≤ gs.length := by
  have hmlen : (((gs.zip ts).zip ws)).length = gs.length := by
    rw [List.length_zip, List.length_zip, ← h1, ← h2]
    omega
  rw [← hmlen, lcnt, gcnt_master gs ts ws c h2, rcnt_master gs ts ws c h2]
  apply countP_three_le
  intro x hx
  have hpx := hpos x hx
  by_cases e1 : x.1.1 = c <;> by_cases e2 : x.2 = c <;> by_cases e3 : x.1.1 = x.1.2 <;>
    simp [e1, e2, e3] <;> omega

/-- The compiled constraint filter accepts exactly the words that would
reproduce the identical Clue Sequence against the same guess. -/
theorem cluevec_iff_sameClues (gs ts ws : List Nat)
    (h1 : gs.length = ts.length) (h2 : gs.length = ws.length)
    (hg : ∀ x ∈ gs, x < 26) (hw : ∀ x ∈ ws, x < 26) :
    is_word_possible_after_cluevec ws (cluevec_of_guess gs.length gs ts) = true
      ↔ clues_of_guess gs ws = clues_of_guess gs ts := by
  rw [is_word_possible_after_cluevec, Bool.and_eq_true, cv_mb, cv_mnb,
    posPart_iff gs ts ws _ h1 h2,
    checkHaves_cv gs.length gs ts (fun c => ws.count c) h1 (Nat.le_refl _),
    sameClues_iff gs ts ws h1 h2]
  constructor
  · rintro ⟨⟨hpos, hmask⟩, hranges⟩
    refine ⟨hpos, fun c => ?_⟩
    have hwpv : wpv gs ts c = min (gcnt gs ts c) (tcnt gs ts c) := rfl
    by_cases hc : c < 26
    · have hsplit := count_split gs ts ws h1 h2 hpos c
      have hbound := lcnt_bound gs ts ws c h1 h2 hpos
      have halF : alF gs ts c = rcnt gs ts c + wpv gs ts c := rfl
      by_cases hal0 : 0 < alF gs ts c
      · have hr := hranges c hc hal0
        by_cases hgw : gcnt gs ts c = wpv gs ts c
        · have hamF : amF gs.length gs ts c = gs.length - gcnt gs ts c := by
            unfold amF
            rw [if_pos hgw]
          rw [hamF] at hr
          omega
        · have hamF : amF gs.length gs ts c = alF gs ts c := by
            unfold amF
            rw [if_neg hgw]
          rw [hamF] at hr
          omega
      · by_cases hgw : gcnt gs ts c = wpv gs ts c
        · omega
        · have hB : ws.count c = 0 := by
            by_contra hcnt
            have hmem : c ∈ ws := by
              have : 0 < ws.count c := by omega
              exact List.count_pos_iff.mp this
            have hmb := hmask c hmem
            rw [cvMask_testBit] at hmb
            have hlt : wpv gs ts c < gcnt gs ts c := by
              have : wpv gs ts c ≤ gcnt gs ts c := Nat.min_le_left _ _
              omega
            simp [hlt, (by omega : alF gs ts c = 0)] at hmb
          omega
    · have hg0 : gcnt gs ts c = 0 := gcnt_eq_zero_of_big gs ts hg (by omega)
      omega
  · rintro ⟨hpos, hmin⟩
    have hwpv : ∀ c, wpv gs ts c = min (gcnt gs ts c) (tcnt gs ts c) := fun _ => rfl
    have halF : ∀ c, alF gs ts c = rcnt gs ts c + wpv gs ts c := fun _ => rfl
    refine ⟨⟨hpos, ?_⟩, ?_⟩
    · intro x hx
      rw [cvMask_testBit]
      have hcntpos : 0 < ws.count x := List.count_pos_iff.mpr hx
      have hsplit := count_split gs ts ws h1 h2 hpos x
      have hmx := hmin x
      by_cases hlt : wpv gs ts x < gcnt gs ts x
      · by_cases hz : alF gs ts x = 0
        · exfalso
          have h1x := halF x
          have h2x := hwpv x
          omega
        · simp [hz]
      · simp [hlt]
    · intro c hc hal0
      have hsplit := count_split gs ts ws h1 h2 hpos c
      have hbound := lcnt_bound gs ts ws c h1 h2 hpos
      have hmc := hmin c
      have h1c := halF c
      have h2c := hwpv c
      by_cases hgw : gcnt gs ts c = wpv gs ts c
      · have hamF : amF gs.length gs ts c = gs.length - gcnt gs ts c := by
          unfold amF
          rw [if_pos hgw]
        rw [hamF]
        omega
      · have hamF : amF gs.length gs ts c = alF gs ts c := by
          unfold amF
          rw [if_neg hgw]
        rw [hamF]
        omega

/-! ### The ranking layer: buckets, the accumulator, and the running worst -/

/-- `clunique` separates exactly as the clue sequence does: two equal-length
targets receive the same base-3 classification against a guess iff they
receive the same clue sequence. -/
theorem clunique_eq_iff (gs ts ws : List Nat)
    (h1 : gs.length = ts.length) (h2 : gs.length = ws.length) :
    clunique_of_guess gs ts = clunique_of_guess gs ws
      ↔ clues_of_guess gs ts = clues_of_guess gs ws := by
  constructor
  · intro h
    have ht := clues_of_guess_length gs ts h1
    have hw := clues_of_guess_length gs ws h2
    have e1 := natToClues_cluesToNat (clues_of_guess gs ts)
    have e2 := natToClues_cluesToNat (clues_of_guess gs ws)
    rw [ht] at e1
    rw [hw] at e2
    unfold clunique_of_guess at h
    rw [← e1, ← e2, h]
  · intro h
    unfold clunique_of_guess
    rw [h]

/-- The inner count of the ranking loop is the size of the target's
clunique bucket: the number of targets classified identically to `t`. -/
theorem count_left_eq_bucket (gs : List Nat) (targets : List (List Nat))
    (t : List Nat) (ht : t ∈ targets)
    (hg : ∀ x ∈ gs, x < 26)
    (hlen : ∀ w ∈ targets, w.length = gs.length)
    (hw : ∀ w ∈ targets, ∀ x ∈ w, x < 26) :
    count_left gs.length targets gs t
      = (targets.map (clunique_of_guess gs)).count (clunique_of_guess gs t) := by
  unfold count_left
  rw [show (targets.map (clunique_of_guess gs)).count (clunique_of_guess gs t)
      = (targets.map (clunique_of_guess gs)).countP
          (fun x => x == clunique_of_guess gs t) from rfl,
    List.countP_map]
  apply List.countP_congr
  intro w hwmem
  have hiff := cluevec_iff_sameClues gs t w
    ((hlen t ht).symm) ((hlen w hwmem).symm) hg (hw w hwmem)
  have hinj := clunique_eq_iff gs w t ((hlen w hwmem).symm) ((hlen t ht).symm)
  simp only [Function.comp_apply, beq_iff_eq]
  rw [hiff, ← hinj]

/-- Summing `if v = x then g v else 0` over a duplicate-free list picks out
the single matching entry. -/
theorem sum_map_ite_single {α : Type} [DecidableEq α] (x : α) (g : α → Nat) :
    ∀ (d : List α), d.Nodup →
      (d.map (fun v => if v = x then g v else 0)).sum
        = if x ∈ d then g x else 0 := by
  intro d
  induction d with
  | nil => intro _; simp
  | cons a d ih =>
    intro hnd
    have hna : a ∉ d := (List.nodup_cons.mp hnd).1
    have hnd2 : d.Nodup := (List.nodup_cons.mp hnd).2
    simp only [List.map_cons, List.sum_cons, ih hnd2]
    by_cases hax : a = x
    · subst hax
      rw [if_pos rfl, if_neg hna, if_pos (List.mem_cons_self a d)]
      omega
    · rw [if_neg hax]
      by_cases hxd : x ∈ d
      · rw [if_pos hxd, if_pos (List.mem_cons_of_mem a hxd)]
        omega
      · have hxad : x ∉ a :: d := by
          intro hmem
          rcases List.mem_cons.mp hmem with h | h
          · exact hax h.symm
          · exact hxd h
        rw [if_neg hxd, if_neg hxad]

/-- Sums of pointwise sums split. -/
theorem sum_map_add {α : Type} (f g : α → Nat) : ∀ (l : List α),
    (l.map (fun v => f v + g v)).sum = (l.map f).sum + (l.map g).sum := by
  intro l
  induction l with
  | nil => simp
  | cons a l ih =>
    simp only [List.map_cons, List.sum_cons, ih]
    omega

/-- Double-counting: summing the `l`-count of each element of `m` equals
summing, per distinct value of `l`, the product of its `l`-count and its
`m`-count. -/
theorem sum_count_mul {α : Type} [DecidableEq α] (l : List α) :
    ∀ (m : List α),
      (m.map (fun x => l.count x)).sum
        = (l.dedup.map (fun v => l.count v * m.count v)).sum := by
  intro m
  induction m with
  | nil => simp
  | cons x m ih =>
    have hpt : ∀ v ∈ l.dedup,
        l.count v * (x :: m).count v
          = l.count v * m.count v + (if v = x then l.count v else 0) := by
      intro v _
      rw [List.count_cons, Nat.mul_add]
      by_cases hvx : v = x
      · subst hvx
        simp
      · have hbx : (x == v) = false := by
          have hxv : ¬x = v := fun hh => hvx hh.symm
          exact beq_eq_false_iff_ne.mpr hxv
        rw [if_neg hvx, hbx]
        simp
    rw [List.map_congr_left hpt, sum_map_add, ← ih,
      sum_map_ite_single x (fun v => l.count v) l.dedup (List.nodup_dedup l)]
    simp only [List.map_cons, List.sum_cons]
    by_cases hxl : x ∈ l
    · rw [if_pos (List.mem_dedup.mpr hxl)]
      omega
    · have h0 : l.count x = 0 := List.count_eq_zero.mpr hxl
      have hxd : x ∉ l.dedup := by
        intro hcon
        exact hxl (List.mem_dedup.mp hcon)
      rw [if_neg hxd, h0]
      omega

/-- The accumulator of the ranking loop is `Σ k²` over the clunique
buckets. -/
theorem acc_eq_sum_sq (gs : List Nat) (targets : List (List Nat))
    (hg : ∀ x ∈ gs, x < 26)
    (hlen : ∀ w ∈ targets, w.length = gs.length)
    (hw : ∀ w ∈ targets, ∀ x ∈ w, x < 26) :
    acc_left gs.length targets gs
      = ((bucketSizes gs targets).map (fun k => k ^ 2)).sum := by
  unfold acc_left bucketSizes
  have h1 : targets.map (fun t => count_left gs.length targets gs t)
      = targets.map
          (fun t => (targets.map (clunique_of_guess gs)).count (clunique_of_guess gs t)) := by
    apply List.map_congr_left
    intro t ht
    exact count_left_eq_bucket gs targets t ht hg hlen hw
  have h2 : targets.map
        (fun t => (targets.map (clunique_of_guess gs)).count (clunique_of_guess gs t))
      = (targets.map (clunique_of_guess gs)).map
          (fun x => (targets.map (clunique_of_guess gs)).count x) := by
    rw [List.map_map]
    rfl
  rw [h1, h2, sum_count_mul (targets.map (clunique_of_guess gs)) (targets.map (clunique_of_guess gs))]
  rw [List.map_map]
  apply congrArg
  apply List.map_congr_left
  intro v hv
  simp only [Function.comp_apply]
  rw [pow_two]

/-- The bucket sizes sum to the number of targets. -/
theorem bucketSizes_sum (gs : List Nat) (targets : List (List Nat)) :
    (bucketSizes gs targets).sum = targets.length := by
  unfold bucketSizes
  have h := List.sum_map_count_dedup_eq_length (targets.map (clunique_of_guess gs))
  simpa using h

/-- The fold step of the `worst_left` update is the `max` fold. -/
theorem foldl_if_eq_foldl_max {α : Type} (c : α → Nat) : ∀ (l : List α) (a : Nat),
    l.foldl (fun w t => if w < c t then c t else w) a
      = l.foldl (fun w t => max w (c t)) a := by
  intro l
  induction l with
  | nil => intro a; rfl
  | cons t l ih =>
    intro a
    rw [List.foldl_cons, List.foldl_cons, ih]
    congr 1
    rcases Nat.lt_or_ge a (c t) with h | h
    · rw [if_pos h]
      exact (Nat.max_eq_right (Nat.le_of_lt h)).symm
    · rw [if_neg (Nat.not_lt.mpr h)]
      exact (Nat.max_eq_left h).symm

/-- A `max`-fold dominates its initial value. -/
theorem le_foldl_max : ∀ (l : List Nat) (a : Nat), a ≤ l.foldl max a := by
  intro l
  induction l with
  | nil => intro a; exact Nat.le_refl a
  | cons x l ih =>
    intro a
    rw [List.foldl_cons]
    exact Nat.le_trans (Nat.le_max_left a x) (ih (max a x))

/-- A `max`-fold dominates every member of the list. -/
theorem mem_le_foldl_max : ∀ (l : List Nat) (a x : Nat), x ∈ l → x ≤ l.foldl max a := by
  intro l
  induction l with
  | nil => intro a x hx; cases hx
  | cons y l ih =>
    intro a x hx
    rw [List.foldl_cons]
    rcases List.mem_cons.mp hx with h | h
    · subst h
      exact Nat.le_trans (Nat.le_max_right a x) (le_foldl_max l (max a x))
    · exact ih (max a y) x h

/-- A `max`-fold is at most any common upper bound of the initial value and
the members. -/
theorem foldl_max_le : ∀ (l : List Nat) (a b : Nat), a ≤ b → (∀ x ∈ l, x ≤ b) →
    l.foldl max a ≤ b := by
  intro l
  induction l with
  | nil => intro a b hab _; exact hab
  | cons y l ih =>
    intro a b hab hall
    rw [List.foldl_cons]
    have h1 : max a y ≤ b := Nat.max_le.mpr ⟨hab, hall y (List.mem_cons_self y l)⟩
    have h2 : ∀ x ∈ l, x ≤ b := fun x hx => hall x (List.mem_cons_of_mem y hx)
    exact ih (max a y) b h1 h2

/-- `worst_left` is the `max`-fold of the per-target counts. -/
theorem worst_left_eq_foldl_max (len : Nat) (targets : List (List Nat)) (g : List Nat) :
    worst_left len targets g
      = (targets.map (fun t => count_left len targets g t)).foldl max 0 := by
  unfold worst_left
  rw [foldl_if_eq_foldl_max (fun t => count_left len targets g t) targets 0, List.foldl_map]

/-- Lists with the same members have the same `max`-fold from `0`. -/
theorem foldl_max_eq_of_mem_iff (l1 l2 : List Nat)
    (h : ∀ x, x ∈ l1 ↔ x ∈ l2) :
    l1.foldl max 0 = l2.foldl max 0 := by
  apply Nat.le_antisymm
  · have hall : ∀ x ∈ l1, x ≤ l2.foldl max 0 := by
      intro x hx
      exact mem_le_foldl_max l2 0 x ((h x).mp hx)
    exact foldl_max_le l1 0 (l2.foldl max 0) (Nat.zero_le _) hall
  · have hall : ∀ x ∈ l2, x ≤ l1.foldl max 0 := by
      intro x hx
      exact mem_le_foldl_max l1 0 x ((h x).mpr hx)
    exact foldl_max_le l2 0 (l1.foldl max 0) (Nat.zero_le _) hall

/-- The descending sort is a permutation of its input. -/
theorem sortDesc_perm (l : List Nat) : (sortDesc l).Perm l :=
  List.perm_insertionSort (fun a b => b ≤ a) l

/-- On a descending-sorted list the `max`-fold from `0` is the head. -/
theorem foldl_max_sortDesc (l : List Nat) :
    (sortDesc l).foldl max 0 = (sortDesc l).headD 0 := by
  have hs : List.Sorted (fun a b => b ≤ a) (sortDesc l) :=
    List.sorted_insertionSort (fun a b => b ≤ a) l
  cases hsd : sortDesc l with
  | nil => rfl
  | cons h t =>
    rw [hsd] at hs
    have hall : ∀ b ∈ t, b ≤ h := (List.sorted_cons.mp hs).1
    rw [List.foldl_cons, List.headD_cons]
    rw [Nat.max_eq_right (Nat.zero_le h)]
    apply Nat.le_antisymm
    · exact foldl_max_le t h h (Nat.le_refl h) hall
    · exact le_foldl_max t h

/-- The running worst of the ranking loop is the largest bucket size: the
head of the descending-sorted bucket list. -/
theorem worst_eq_head_sortDesc (gs : List Nat) (targets : List (List Nat))
    (hg : ∀ x ∈ gs, x < 26)
    (hlen : ∀ w ∈ targets, w.length = gs.length)
    (hw : ∀ w ∈ targets, ∀ x ∈ w, x < 26) :
    worst_left gs.length targets gs = (sortDesc (bucketSizes gs targets)).headD 0 := by
  rw [worst_left_eq_foldl_max, ← foldl_max_sortDesc]
  apply foldl_max_eq_of_mem_iff
  intro x
  constructor
  · intro hx
    rcases List.mem_map.mp hx with ⟨t, ht, hxt⟩
    have hb := count_left_eq_bucket gs targets t ht hg hlen hw
    have hclin : clunique_of_guess gs t ∈ (targets.map (clunique_of_guess gs)).dedup := by
      rw [List.mem_dedup]
      exact List.mem_map_of_mem _ ht
    have hmemB : x ∈ bucketSizes gs targets := by
      unfold bucketSizes
      rw [← hxt, hb]
      exact List.mem_map_of_mem _ hclin
    exact ((sortDesc_perm (bucketSizes gs targets)).mem_iff).mpr hmemB
  · intro hx
    have hxb : x ∈ bucketSizes gs targets :=
      ((sortDesc_perm (bucketSizes gs targets)).mem_iff).mp hx
    unfold bucketSizes at hxb
    rcases List.mem_map.mp hxb with ⟨v, hv, hxv⟩
    rw [List.mem_dedup] at hv
    rcases List.mem_map.mp hv with ⟨t, ht, hvt⟩
    have hb := count_left_eq_bucket gs targets t ht hg hlen hw
    have hxc : x = count_left gs.length targets gs t := by
      rw [hb, ← hxv, hvt]
    rw [hxc]
    exact List.mem_map_of_mem _ ht

/-- `dedup` length is preserved when mapping through a function injective on
the list's elements. -/
theorem dedup_length_map_inj {α β : Type} [DecidableEq α] [DecidableEq β] (g : α → β) :
    ∀ (L : List α), (∀ x ∈ L, ∀ y ∈ L, g x = g y → x = y) →
      ((L.map g).dedup).length = (L.dedup).length := by
  intro L
  induction L with
  | nil => intro _; rfl
  | cons a L ih =>
    intro hinj
    have hinj2 : ∀ x ∈ L, ∀ y ∈ L, g x = g y → x = y := by
      intro x hx y hy
      exact hinj x (List.mem_cons_of_mem a hx) y (List.mem_cons_of_mem a hy)
    by_cases hmem : a ∈ L
    · have hgm : g a ∈ L.map g := List.mem_map_of_mem g hmem
      rw [List.map_cons, List.dedup_cons_of_mem hgm, List.dedup_cons_of_mem hmem]
      exact ih hinj2
    · have hgm : g a ∉ L.map g := by
        intro hcon
        rcases List.mem_map.mp hcon with ⟨b, hb, hba⟩
        have hab : a = b :=
          hinj a (List.mem_cons_self a L) b (List.mem_cons_of_mem a hb) hba.symm
        rw [hab] at hmem
        exact hmem hb
      rw [List.map_cons, List.dedup_cons_of_not_mem hgm, List.dedup_cons_of_not_mem hmem,
        List.length_cons, List.length_cons, ih hinj2]

/-- The number of populated clunique buckets is the number of distinct clue
sequences among the targets. -/
theorem npop_eq_distinct_clues (gs : List Nat) (targets : List (List Nat))
    (hlen : ∀ w ∈ targets, w.length = gs.length) :
    ((targets.map (clunique_of_guess gs)).dedup).length
      = ((targets.map (fun t => clues_of_guess gs t)).dedup).length := by
  have hmm : targets.map (clunique_of_guess gs)
      = (targets.map (fun t => clues_of_guess gs t)).map cluesToNat := by
    rw [List.map_map]
    rfl
  rw [hmm]
  apply dedup_length_map_inj cluesToNat (targets.map (fun t => clues_of_guess gs t))
  intro x hx y hy hxy
  rcases List.mem_map.mp hx with ⟨t, ht, hxt⟩
  rcases List.mem_map.mp hy with ⟨u, hu, hyu⟩
  have hxlen : x.length = gs.length := by
    rw [← hxt]
    exact clues_of_guess_length gs t ((hlen t ht).symm)
  have hylen : y.length = gs.length := by
    rw [← hyu]
    exact clues_of_guess_length gs u ((hlen u hu).symm)
  have e1 := natToClues_cluesToNat x
  have e2 := natToClues_cluesToNat y
  rw [hxlen] at e1
  rw [hylen] at e2
  rw [← e1, ← e2, hxy]

/-- Shifting `lastD` across a cons: the new element becomes the fallback. -/
theorem lastD_cons (k : Nat) (l : List Nat) (q : ℚ) :
    lastD (k :: l) q = lastD l ((k : Nat) : ℚ) := by
  cases l with
  | nil => simp [lastD, List.getLast?_singleton]
  | cons x l2 =>
    simp only [lastD, List.getLast?_cons_cons]
    cases hgl : (x :: l2).getLast? with
    | none => exact absurd hgl (by simp)
    | some y => rfl

/-- Characterization of the spec's median walk: it stops at the first bucket
whose cumulative count reaches the rank `r`, and returns the linear
interpolation between that bucket's size and the previous bucket's size. -/
theorem medianGo_char (r : Nat) : ∀ (bs : List Nat) (acc : Nat) (prev : ℚ),
    bs ≠ [] → r ≤ acc + bs.sum →
    ∃ i, i < bs.length ∧ r ≤ acc + (bs.take (i + 1)).sum ∧
      (∀ j, j < i → acc + (bs.take (j + 1)).sum < r) ∧
      medianGo r acc prev bs
        = lastD (bs.take i) prev
          + (((r : Nat) : ℚ) - ((acc : Nat) : ℚ) - (((bs.take i).sum : Nat) : ℚ))
              / ((bs.getD i 0 : Nat) : ℚ)
            * (((bs.getD i 0 : Nat) : ℚ) - lastD (bs.take i) prev) := by
  intro bs
  induction bs with
  | nil => intro acc prev hne _; exact absurd rfl hne
  | cons k rest ih =>
    intro acc prev _ hsum
    by_cases hr : r ≤ acc + k
    · refine ⟨0, Nat.succ_pos _, ?_, ?_, ?_⟩
      · rw [List.take_succ_cons, List.take_zero, List.sum_cons, List.sum_nil]
        omega
      · intro j hj
        omega
      · have hstep : medianGo r acc prev (k :: rest)
            = prev + (((r : Nat) : ℚ) - ((acc : Nat) : ℚ)) / ((k : Nat) : ℚ)
                * (((k : Nat) : ℚ) - prev) := by
          simp only [medianGo]
          rw [if_pos hr]
        rw [hstep]
        simp [lastD]
    · have hne2 : rest ≠ [] := by
        intro hrnil
        subst hrnil
        rw [List.sum_cons, List.sum_nil] at hsum
        omega
      have hsum2 : r ≤ (acc + k) + rest.sum := by
        rw [List.sum_cons] at hsum
        omega
      rcases ih (acc + k) ((k : Nat) : ℚ) hne2 hsum2 with ⟨i, hilen, hreach, hfirst, heq⟩
      refine ⟨i + 1, ?_, ?_, ?_, ?_⟩
      · rw [List.length_cons]
        omega
      · rw [List.take_succ_cons, List.sum_cons]
        omega
      · intro j hj
        cases j with
        | zero =>
          rw [List.take_succ_cons, List.take_zero, List.sum_cons, List.sum_nil]
          omega
        | succ j2 =>
          have hf := hfirst j2 (by omega)
          rw [List.take_succ_cons, List.sum_cons]
          omega
      · have hstep : medianGo r acc prev (k :: rest)
            = medianGo r (acc + k) ((k : Nat) : ℚ) rest := by
          simp only [medianGo]
          rw [if_neg hr]
        rw [hstep, heq, List.take_succ_cons, lastD_cons, List.getD_cons_succ,
          List.sum_cons]
        push_cast
        ring

/-- The median walk over the whole sorted bucket list, characterized by the
first prefix reaching the rank. -/
theorem medianWalk_char (r : Nat) (bs : List Nat) (hne : bs ≠ []) (hr : r ≤ bs.sum) :
    ∃ i, i < bs.length ∧ r ≤ (bs.take (i + 1)).sum ∧
      (∀ j, j < i → (bs.take (j + 1)).sum < r) ∧
      medianWalk r bs
        = lastD (bs.take i) ((bs.headD 0 : Nat) : ℚ)
          + (((r : Nat) : ℚ) - (((bs.take i).sum : Nat) : ℚ))
              / ((bs.getD i 0 : Nat) : ℚ)
            * (((bs.getD i 0 : Nat) : ℚ) - lastD (bs.take i) ((bs.headD 0 : Nat) : ℚ)) := by
  have h0 : r ≤ 0 + bs.sum := by omega
  rcases medianGo_char r bs 0 ((bs.headD 0 : Nat) : ℚ) hne h0 with ⟨i, h1, h2, h3, h4⟩
  refine ⟨i, h1, by omega, ?_, ?_⟩
  · intro j hj
    have hh := h3 j hj
    omega
  · unfold medianWalk
    rw [h4]
    norm_num

/-- A sum of per-element values each at least `1` dominates the length. -/
theorem length_le_sum_map {α : Type} (f : α → Nat) : ∀ (l : List α),
    (∀ x ∈ l, 1 ≤ f x) → l.length ≤ (l.map f).sum := by
  intro l
  induction l with
  | nil => intro _; exact Nat.le_refl 0
  | cons a l ih =>
    intro h
    have h1 : 1 ≤ f a := h a (List.mem_cons_self a l)
    have h2 : l.length ≤ (l.map f).sum := by
      apply ih
      intro x hx
      exact h x (List.mem_cons_of_mem a hx)
    simp only [List.map_cons, List.sum_cons, List.length_cons]
    omega

/-- A sum of per-element values each at most `b` is at most `length * b`. -/
theorem sum_map_le_mul {α : Type} (f : α → Nat) (b : Nat) : ∀ (l : List α),
    (∀ x ∈ l, f x ≤ b) → (l.map f).sum ≤ l.length * b := by
  intro l
  induction l with
  | nil => intro _; simp
  | cons a l ih =>
    intro h
    have h1 : f a ≤ b := h a (List.mem_cons_self a l)
    have h2 : (l.map f).sum ≤ l.length * b := by
      apply ih
      intro x hx
      exact h x (List.mem_cons_of_mem a hx)
    simp only [List.map_cons, List.sum_cons, List.length_cons]
    have h3 : (l.length + 1) * b = l.length * b + b := by ring
    omega

/-! ### Claim theorems -/

/-- C5: for guess "AAHED" (chopped `[0,0,7,4,3]`) against target "ABEAM"
(chopped `[0,1,4,0,12]`), `clues_of_guess` returns exactly
`RightPosition, WrongPosition, Absent, WrongPosition, Absent` ("RWAWA"): the
second 'A' of the guess is credited `WrongPosition` against the target's
second 'A', and the repeated letters 'A' and 'E' are not double-credited. -/
theorem claim_C5_clues_AAHED_ABEAM :
    clues_of_guess [0, 0, 7, 4, 3] [0, 1, 4, 0, 12] =
      [Clue.R, Clue.W, Clue.A, Clue.W, Clue.A] := by decide

/-- C6: for every pair of equal-length words over A–Z, the target itself is
accepted by `is_word_possible_after_guess` against the Clue Sequence the
guess produces against that same target. -/
theorem claim_C6_target_always_possible (gs ts : List Nat)
    (h1 : gs.length = ts.length)
    (hg : ∀ x ∈ gs, x < 26) (ht : ∀ x ∈ ts, x < 26) :
    is_word_possible_after_guess gs ts (clues_of_guess gs ts) = true :=
  (raw_iff_sameClues gs ts ts h1 h1 hg).mpr rfl

/-- Witness for C6 at guess "BAD" (`[1,0,3]`), target "CAB" (`[2,0,1]`). -/
theorem claim_C6_witness :
    is_word_possible_after_guess [1, 0, 3] [2, 0, 1]
      (clues_of_guess [1, 0, 3] [2, 0, 1]) = true :=
  claim_C6_target_always_possible [1, 0, 3] [2, 0, 1] rfl (by decide) (by decide)

/-- C10: for every pair of equal-length words over A–Z, the guess itself is
accepted against its own clues exactly when the guess was the target; a wrong
guess always eliminates itself. -/
theorem claim_C10_guess_possible_iff_eq (gs ts : List Nat)
    (h1 : gs.length = ts.length)
    (hg : ∀ x ∈ gs, x < 26) (ht : ∀ x ∈ ts, x < 26) :
    (is_word_possible_after_guess gs gs (clues_of_guess gs ts) = true ↔ gs = ts) := by
  rw [raw_iff_sameClues gs ts gs h1 rfl hg]
  constructor
  · intro heq
    rw [clues_of_guess_self] at heq
    rw [clues_of_guess_eq_cluesCnt] at heq
    exact (cluesCnt_eq_replicate_iff gs ts _ h1).mp heq.symm
  · intro heq
    rw [heq]

/-- Witness for C10 at guess "AB" (`[0,1]`), target "BA" (`[1,0]`). -/
theorem claim_C10_witness :
    (is_word_possible_after_guess [0, 1] [0, 1] (clues_of_guess [0, 1] [1, 0]) = true
      ↔ [0, 1] = [1, 0]) :=
  claim_C10_guess_possible_iff_eq [0, 1] [1, 0] rfl (by decide) (by decide)

/-- C7: the classification integer is the clue sequence read as a base-3
numeral, most-significant digit first; decoding it reproduces the exact
sequence; and two same-length pairs classify equally iff their clue
sequences coincide. -/
theorem claim_C7_clunique_base3 (gs ts : List Nat) (h1 : gs.length = ts.length) :
    clunique_of_guess gs ts
        = Nat.ofDigits (3 : Nat) (((clues_of_guess gs ts).map clueTrit).reverse)
      ∧ natToClues gs.length (clunique_of_guess gs ts) = clues_of_guess gs ts
      ∧ ∀ gs2 ts2 : List Nat, gs2.length = ts2.length → gs2.length = gs.length →
          (clunique_of_guess gs ts = clunique_of_guess gs2 ts2
            ↔ clues_of_guess gs ts = clues_of_guess gs2 ts2) := by
  have hdec : ∀ (as bs : List Nat), as.length = bs.length → as.length = gs.length →
      natToClues gs.length (clunique_of_guess as bs) = clues_of_guess as bs := by
    intro as bs ha hb
    rw [clunique_of_guess, ← hb, ← clues_of_guess_length as bs ha,
      natToClues_cluesToNat]
  refine ⟨cluesToNat_eq_ofDigits _, hdec gs ts h1 rfl, fun gs2 ts2 h2 h3 => ?_⟩
  constructor
  · intro heq
    have d1 := hdec gs ts h1 rfl
    have d2 := hdec gs2 ts2 h2 h3
    rw [← d1, ← d2, heq]
  · intro heq
    rw [clunique_of_guess, clunique_of_guess, heq]

/-- C2: `is_word_possible_after_cluevec` accepts a candidate against the
Constraint Object built by `cluevec_of_guess` iff the candidate would produce
exactly the same Clue Sequence as the target did (words over A–Z, equal
length; the length bound keeps the `uint8_t` counters faithful). -/
theorem claim_C2_cluevec_faithful (gs ts ws : List Nat)
    (h1 : gs.length = ts.length) (h2 : gs.length = ws.length)
    (hg : ∀ x ∈ gs, x < 26) (ht : ∀ x ∈ ts, x < 26) (hw : ∀ x ∈ ws, x < 26)
    (h255 : gs.length ≤ 255) :
    (is_word_possible_after_cluevec ws (cluevec_of_guess gs.length gs ts) = true
      ↔ clues_of_guess gs ws = clues_of_guess gs ts) :=
  cluevec_iff_sameClues gs ts ws h1 h2 hg hw

/-- Witness for C2 at guess "AAHED", target "ABEAM", candidate "ABASE". -/
theorem claim_C2_witness :
    (is_word_possible_after_cluevec [0, 1, 0, 18, 4]
        (cluevec_of_guess 5 [0, 0, 7, 4, 3] [0, 1, 4, 0, 12]) = true
      ↔ clues_of_guess [0, 0, 7, 4, 3] [0, 1, 0, 18, 4]
          = clues_of_guess [0, 0, 7, 4, 3] [0, 1, 4, 0, 12]) :=
  claim_C2_cluevec_faithful [0, 0, 7, 4, 3] [0, 1, 4, 0, 12] [0, 1, 0, 18, 4]
    rfl rfl (by decide) (by decide) (by decide) (by decide)

/-- C1: the compiled-constraint filter and the raw-clue filter return the
same verdict on every candidate (words over A–Z, equal length; the length
bound keeps the `uint8_t` counters faithful). -/
theorem claim_C1_filters_agree (gs ts ws : List Nat)
    (h1 : gs.length = ts.length) (h2 : gs.length = ws.length)
    (hg : ∀ x ∈ gs, x < 26) (ht : ∀ x ∈ ts, x < 26) (hw : ∀ x ∈ ws, x < 26)
    (h255 : gs.length ≤ 255) :
    is_word_possible_after_cluevec ws (cluevec_of_guess gs.length gs ts)
      = is_word_possible_after_guess gs ws (clues_of_guess gs ts) :=
  Bool.coe_iff_coe.mp
    ((cluevec_iff_sameClues gs ts ws h1 h2 hg hw).trans
      (raw_iff_sameClues gs ts ws h1 h2 hg).symm)

/-- Witness for C1 at guess "AAHED", target "ABEAM", candidate "ABASE". -/
theorem claim_C1_witness :
    is_word_possible_after_cluevec [0, 1, 0, 18, 4]
        (cluevec_of_guess 5 [0, 0, 7, 4, 3] [0, 1, 4, 0, 12])
      = is_word_possible_after_guess [0, 0, 7, 4, 3] [0, 1, 0, 18, 4]
          (clues_of_guess [0, 0, 7, 4, 3] [0, 1, 4, 0, 12]) :=
  claim_C1_filters_agree [0, 0, 7, 4, 3] [0, 1, 4, 0, 12] [0, 1, 0, 18, 4]
    rfl rfl (by decide) (by decide) (by decide) (by decide)

/-- C8 counterexample: for guess "AB" against target "AC" (chopped, length 2),
position 0 carries the `must_be` marker for 'A' *and* a non-empty
`must_not_be` mask (bit 1, i.e. 'B', banned everywhere because 'B' got an
`Absent` clue with `at_least = 0`), so a position can carry both markers. -/
theorem claim_C8_counterexample :
    (cluevec_of_guess 2 [0, 1] [0, 2]).must_be.get? 0 = some (some 0)
      ∧ (cluevec_of_guess 2 [0, 1] [0, 2]).must_not_be.get? 0 = some 2
      ∧ Nat.testBit 2 1 = true := by
  decide

/-- C8 amended: a position's `must_be` letter is never itself banned by that
position's `must_not_be` mask (the markers never contradict), although a
`must_be` position may carry `must_not_be` bits for other, globally-excluded
letters. -/
theorem claim_C8_amended_no_conflict (len : Nat) (gs ts : List Nat) (i c m : Nat)
    (hmb : (cluevec_of_guess len gs ts).must_be.get? i = some (some c))
    (hmnb : (cluevec_of_guess len gs ts).must_not_be.get? i = some m) :
    m.testBit c = false := by
  rw [cv_mb, List.get?_map] at hmb
  rw [cv_mnb, List.get?_map] at hmnb
  cases hp : (gs.zip ts).get? i with
  | none =>
    rw [hp] at hmb
    cases hmb
  | some p =>
    rw [hp] at hmb hmnb
    simp only [Option.map_some', Option.some.injEq] at hmb hmnb
    by_cases hpe : p.1 = p.2
    · rw [if_pos hpe] at hmb
      injection hmb with hmb
      rw [if_pos hpe] at hmnb
      rw [← hmnb, Nat.zero_or, cvMask_testBit]
      have hmem : p ∈ gs.zip ts := List.get?_mem hp
      have hrc : 0 < rcnt gs ts c := by
        rw [rcnt]
        refine List.countP_pos_iff.mpr ⟨p, hmem, ?_⟩
        simp [← hmb, hpe]
      have halF : alF gs ts c = rcnt gs ts c + wpv gs ts c := rfl
      have hne : (alF gs ts c == 0) = false := by
        simp only [beq_eq_false_iff_ne]
        omega
      rw [hne, Bool.and_false]
    · rw [if_neg hpe] at hmb
      cases hmb

/-- Witness for the amended C8 at guess "AB", target "AC", position 0. -/
theorem claim_C8_amended_witness :
    (cluevec_of_guess 2 [0, 1] [0, 2]).must_be.get? 0 = some (some 0)
      ∧ Nat.testBit 2 0 = false :=
  ⟨by decide,
   claim_C8_amended_no_conflict 2 [0, 1] [0, 2] 0 0 2 (by decide) (by decide)⟩

/-- Witness for C7 at guess/target pairs ("AB","BA") and ("AC","CA"). -/
theorem claim_C7_witness :
    (clunique_of_guess [0, 1] [1, 0]
        = Nat.ofDigits (3 : Nat) (((clues_of_guess [0, 1] [1, 0]).map clueTrit).reverse))
      ∧ natToClues 2 (clunique_of_guess [0, 1] [1, 0]) = clues_of_guess [0, 1] [1, 0]
      ∧ (clunique_of_guess [0, 1] [1, 0] = clunique_of_guess [0, 2] [2, 0]
          ↔ clues_of_guess [0, 1] [1, 0] = clues_of_guess [0, 2] [2, 0]) :=
  ⟨(claim_C7_clunique_base3 [0, 1] [1, 0] rfl).1,
   (claim_C7_clunique_base3 [0, 1] [1, 0] rfl).2.1,
   (claim_C7_clunique_base3 [0, 1] [1, 0] rfl).2.2 [0, 2] [2, 0] rfl rfl⟩


/-- C4: the average remaining-candidates computed by the ranking loop — the
accumulator `acc` (summing, for each target, how many targets the compiled
filter still accepts) divided by `Nt` — equals `(Σ k²) / Nt`, where `k`
ranges over the sizes of the buckets partitioning the targets by the base-3
clue classification of the guess against each target. -/
theorem claim_C4_average_sum_squares (gs : List Nat) (targets : List (List Nat))
    (hne : targets ≠ [])
    (hg : ∀ x ∈ gs, x < 26)
    (hlen : ∀ w ∈ targets, w.length = gs.length)
    (hw : ∀ w ∈ targets, ∀ x ∈ w, x < 26)
    (h255 : gs.length ≤ 255) :
    ((acc_left gs.length targets gs : Nat) : ℚ) / ((targets.length : Nat) : ℚ)
      = ((((bucketSizes gs targets).map (fun k => k ^ 2)).sum : Nat) : ℚ)
          / ((targets.length : Nat) : ℚ) := by
  rw [acc_eq_sum_sq gs targets hg hlen hw]

/-- Witness for C4 at guess "AB" over targets \x7b"AB", "AA"\x7d. -/
theorem claim_C4_witness :
    ([[0, 1], [0, 0]] : List (List Nat)) ≠ []
    ∧ ((acc_left ([0, 1] : List Nat).length [[0, 1], [0, 0]] [0, 1] : Nat) : ℚ)
          / ((([[0, 1], [0, 0]] : List (List Nat)).length : Nat) : ℚ)
        = ((((bucketSizes [0, 1] [[0, 1], [0, 0]]).map (fun k => k ^ 2)).sum : Nat) : ℚ)
          / ((([[0, 1], [0, 0]] : List (List Nat)).length : Nat) : ℚ) :=
  ⟨by decide,
    claim_C4_average_sum_squares [0, 1] [[0, 1], [0, 0]] (by decide) (by decide)
      (by decide) (by decide) (by decide)⟩

/-- C9: over a non-empty target list, the worst-case remaining-candidates of
the ranking loop is at least the average remaining-candidates, and the
average is at least 1. -/
theorem claim_C9_worst_ge_avg_ge_one (gs : List Nat) (targets : List (List Nat))
    (hne : targets ≠ [])
    (hg : ∀ x ∈ gs, x < 26)
    (hlen : ∀ w ∈ targets, w.length = gs.length)
    (hw : ∀ w ∈ targets, ∀ x ∈ w, x < 26)
    (h255 : gs.length ≤ 255) :
    (1 : ℚ) ≤ ((acc_left gs.length targets gs : Nat) : ℚ)
        / ((targets.length : Nat) : ℚ)
    ∧ ((acc_left gs.length targets gs : Nat) : ℚ) / ((targets.length : Nat) : ℚ)
        ≤ ((worst_left gs.length targets gs : Nat) : ℚ) := by
  have hpos : 0 < targets.length := List.length_pos.mpr hne
  have hself : ∀ t ∈ targets, 1 ≤ count_left gs.length targets gs t := by
    intro t ht
    have hacc : is_word_possible_after_cluevec t (cluevec_of_guess gs.length gs t) = true :=
      (cluevec_iff_sameClues gs t t ((hlen t ht).symm) ((hlen t ht).symm) hg (hw t ht)).mpr rfl
    unfold count_left
    have h01 : 0 < targets.countP
        (fun w => is_word_possible_after_cluevec w (cluevec_of_guess gs.length gs t)) := by
      rw [List.countP_pos_iff]
      exact ⟨t, ht, hacc⟩
    omega
  have hge : targets.length ≤ acc_left gs.length targets gs := by
    unfold acc_left
    exact length_le_sum_map (fun t => count_left gs.length targets gs t) targets hself
  have hcw : ∀ t ∈ targets,
      count_left gs.length targets gs t ≤ worst_left gs.length targets gs := by
    intro t ht
    rw [worst_left_eq_foldl_max]
    exact mem_le_foldl_max _ 0 _
      (List.mem_map_of_mem (fun t => count_left gs.length targets gs t) ht)
  have hub : acc_left gs.length targets gs
      ≤ worst_left gs.length targets gs * targets.length := by
    unfold acc_left
    have h1 := sum_map_le_mul (fun t => count_left gs.length targets gs t)
      (worst_left gs.length targets gs) targets hcw
    have h2 : targets.length * worst_left gs.length targets gs
        = worst_left gs.length targets gs * targets.length := Nat.mul_comm _ _
    omega
  have hq : (0 : ℚ) < ((targets.length : Nat) : ℚ) := by exact_mod_cast hpos
  constructor
  · rw [one_le_div hq]
    exact_mod_cast hge
  · rw [div_le_iff₀ hq]
    exact_mod_cast hub

/-- Witness for C9 at guess "AB" over targets \x7b"AB", "AA"\x7d. -/
theorem claim_C9_witness :
    ([[0, 1], [0, 0]] : List (List Nat)) ≠ []
    ∧ ((1 : ℚ) ≤ ((acc_left ([0, 1] : List Nat).length [[0, 1], [0, 0]] [0, 1] : Nat) : ℚ)
          / ((([[0, 1], [0, 0]] : List (List Nat)).length : Nat) : ℚ)
      ∧ ((acc_left ([0, 1] : List Nat).length [[0, 1], [0, 0]] [0, 1] : Nat) : ℚ)
            / ((([[0, 1], [0, 0]] : List (List Nat)).length : Nat) : ℚ)
          ≤ ((worst_left ([0, 1] : List Nat).length [[0, 1], [0, 0]] [0, 1] : Nat) : ℚ)) :=
  ⟨by decide,
    claim_C9_worst_ge_avg_ge_one [0, 1] [[0, 1], [0, 0]] (by decide) (by decide)
      (by decide) (by decide) (by decide)⟩


/-- C3 (the Ranking Record itself is modelled from the spec; its emission
code is not in `src/`, where the cited revisions print only average and
worst). The record emitted per guess over a non-empty target list carries
the four aggregates: its average is the ranking loop's accumulator divided
by `Nt`; its worst-case is the ranking loop's running maximum; its count of
populated classifications is the number of distinct clue sequences among
the targets; and its median is obtained by walking the descending-sorted
buckets until the cumulative count first reaches the rank `⌊Nt/2⌋`, then
linearly interpolating between the current and previous bucket sizes. -/
theorem claim_C3_ranking_record (gs : List Nat) (targets : List (List Nat))
    (hne : targets ≠ [])
    (hg : ∀ x ∈ gs, x < 26)
    (hlen : ∀ w ∈ targets, w.length = gs.length)
    (hw : ∀ w ∈ targets, ∀ x ∈ w, x < 26)
    (h255 : gs.length ≤ 255) :
    (rankingRecord gs targets).average
        = ((acc_left gs.length targets gs : Nat) : ℚ) / ((targets.length : Nat) : ℚ)
    ∧ (rankingRecord gs targets).worst = worst_left gs.length targets gs
    ∧ (rankingRecord gs targets).npop
        = ((targets.map (fun t => clues_of_guess gs t)).dedup).length
    ∧ (∃ i, i < (sortDesc (bucketSizes gs targets)).length
        ∧ targets.length / 2 ≤ ((sortDesc (bucketSizes gs targets)).take (i + 1)).sum
        ∧ (∀ j, j < i →
            ((sortDesc (bucketSizes gs targets)).take (j + 1)).sum < targets.length / 2)
        ∧ (rankingRecord gs targets).median
            = lastD ((sortDesc (bucketSizes gs targets)).take i)
                (((sortDesc (bucketSizes gs targets)).headD 0 : Nat) : ℚ)
              + (((targets.length / 2 : Nat) : ℚ)
                  - ((((sortDesc (bucketSizes gs targets)).take i).sum : Nat) : ℚ))
                  / (((sortDesc (bucketSizes gs targets)).getD i 0 : Nat) : ℚ)
                * ((((sortDesc (bucketSizes gs targets)).getD i 0 : Nat) : ℚ)
                    - lastD ((sortDesc (bucketSizes gs targets)).take i)
                        (((sortDesc (bucketSizes gs targets)).headD 0 : Nat) : ℚ))) := by
  refine ⟨?_, ?_, ?_, ?_⟩
  · rw [show (rankingRecord gs targets).average
        = ((((bucketSizes gs targets).map (fun k => k ^ 2)).sum : Nat) : ℚ)
            / ((targets.length : Nat) : ℚ) from rfl,
      ← acc_eq_sum_sq gs targets hg hlen hw]
  · exact (worst_eq_head_sortDesc gs targets hg hlen hw).symm
  · exact npop_eq_distinct_clues gs targets hlen
  · have hBne : bucketSizes gs targets ≠ [] := by
      unfold bucketSizes
      intro hcon
      have hd : (targets.map (clunique_of_guess gs)).dedup = [] :=
        List.map_eq_nil.mp hcon
      have hm : targets.map (clunique_of_guess gs) = [] :=
        (List.dedup_eq_nil (targets.map (clunique_of_guess gs))).mp hd
      exact hne (List.map_eq_nil.mp hm)
    have hbne : sortDesc (bucketSizes gs targets) ≠ [] := by
      intro hcon
      have hlen0 := (sortDesc_perm (bucketSizes gs targets)).length_eq
      rw [hcon] at hlen0
      exact hBne (List.length_eq_zero.mp hlen0.symm)
    have hrle : targets.length / 2 ≤ (sortDesc (bucketSizes gs targets)).sum := by
      rw [(sortDesc_perm (bucketSizes gs targets)).sum_eq, bucketSizes_sum]
      omega
    exact medianWalk_char (targets.length / 2) (sortDesc (bucketSizes gs targets)) hbne hrle

/-- Witness for C3 at guess "AB" over targets \x7b"AB", "AA"\x7d. -/
theorem claim_C3_witness :
    ([[0, 1], [0, 0]] : List (List Nat)) ≠ []
    ∧ ((rankingRecord [0, 1] [[0, 1], [0, 0]]).average
        = ((acc_left ([0, 1] : List Nat).length [[0, 1], [0, 0]] [0, 1] : Nat) : ℚ)
            / ((([[0, 1], [0, 0]] : List (List Nat)).length : Nat) : ℚ)
    ∧ (rankingRecord [0, 1] [[0, 1], [0, 0]]).worst
        = worst_left ([0, 1] : List Nat).length [[0, 1], [0, 0]] [0, 1]
    ∧ (rankingRecord [0, 1] [[0, 1], [0, 0]]).npop
        = ((([[0, 1], [0, 0]] : List (List Nat)).map
            (fun t => clues_of_guess [0, 1] t)).dedup).length
    ∧ (∃ i, i < (sortDesc (bucketSizes [0, 1] [[0, 1], [0, 0]])).length
        ∧ ([[0, 1], [0, 0]] : List (List Nat)).length / 2
            ≤ ((sortDesc (bucketSizes [0, 1] [[0, 1], [0, 0]])).take (i + 1)).sum
        ∧ (∀ j, j < i →
            ((sortDesc (bucketSizes [0, 1] [[0, 1], [0, 0]])).take (j + 1)).sum
              < ([[0, 1], [0, 0]] : List (List Nat)).length / 2)
        ∧ (rankingRecord [0, 1] [[0, 1], [0, 0]]).median
            = lastD ((sortDesc (bucketSizes [0, 1] [[0, 1], [0, 0]])).take i)
                (((sortDesc (bucketSizes [0, 1] [[0, 1], [0, 0]])).headD 0 : Nat) : ℚ)
              + (((([[0, 1], [0, 0]] : List (List Nat)).length / 2 : Nat) : ℚ)
                  - ((((sortDesc (bucketSizes [0, 1] [[0, 1], [0, 0]])).take i).sum : Nat) : ℚ))
                  / (((sortDesc (bucketSizes [0, 1] [[0, 1], [0, 0]])).getD i 0 : Nat) : ℚ)
                * ((((sortDesc (bucketSizes [0, 1] [[0, 1], [0, 0]])).getD i 0 : Nat) : ℚ)
                    - lastD ((sortDesc (bucketSizes [0, 1] [[0, 1], [0, 0]])).take i)
                        (((sortDesc (bucketSizes [0, 1] [[0, 1], [0, 0]])).headD 0 : Nat) : ℚ)))) :=
  ⟨by decide,
    claim_C3_ranking_record [0, 1] [[0, 1], [0, 0]] (by decide) (by decide)
      (by decide) (by decide) (by decide)⟩

end Lexeme
